import Mathlib

/-!
# piscina-locks: the lock coordinator of `src/locks.cc`

A shallow embedding of `LockManager` (request queue, held set, grant pass,
steal, if-available, cancel, release, snapshot), of `Lock::Eject`, of
`LockRequest::Notify` and `LockRequest::OnNotify`, and of the mode check of the
`LockRequest` constructor, followed by theorems about them.

## How the C++ containers are modelled

`requests_` is a `std::deque<LockRequest*>` and `held_` a
`std::deque<std::unique_ptr<Lock>>`.  Three loops of the source erase from the
deque they are iterating over with a range-based `for`:

```
for (auto const& request : requests_) {          // __begin, __end taken once
  ...
  requests_.erase(std::remove(requests_.begin(), requests_.end(), request),
                  requests_.end());
  request->Notify(...);
}
```

To give these loops a meaning the deque is modelled as a row of slots:

* an iterator is a slot index; the range-based `for` takes `end()` once, before
  the first iteration, and visits every slot up to that index;
* the loop variable is a reference, that is, it denotes *the slot*, and is read
  again each time it is used;
* `std::remove(first, last, value)` receives `value` by reference; here it is
  a reference to a slot of the very range that is being compacted, so the
  value compared against changes when that slot is overwritten;
* `erase(new_end, end())` only moves the end of the deque; a slot of raw
  pointers left behind it keeps its contents, a `unique_ptr` left behind it
  (or moved from) is null;
* calling a member through a null `unique_ptr` is a fault, reported as
  `Except.error` with the manager as it was at the fault.

Pointers are natural numbers (`ptr`); `new Lock` and the `LockWrap` objects
made by `LockWrap::NewInstance` take the next unused number.
-/

namespace piscina.locks

/-! ## Data model (locks.h) -/

/-- The enum `Lock::Mode`. -/
inductive Lock.Mode where
  | EXCLUSIVE
  | SHARED
  deriving DecidableEq, Repr

/-- The enum `Lock::EjectedReason`. -/
inductive Lock.EjectedReason where
  | NONE
  | RELEASED
  | STOLEN
  deriving DecidableEq, Repr

/-- A `Lock` object: `ptr` is its address, `owner_` the address of the
`LockWrap` holding it (`none` is `nullptr`). -/
structure Lock where
  ptr : Nat
  name : String
  mode : Lock.Mode
  owner_ : Option Nat
  deriving DecidableEq, Repr

/-- A `LockWrap` object (the holder handle): `lock_` is the address of the
lock it refers to, `reason_` the recorded ejection reason. -/
structure LockWrap where
  ptr : Nat
  lock_ : Option Nat
  reason_ : Lock.EjectedReason
  deriving DecidableEq, Repr

/-- The accessor `LockWrap::Held`: `lock_ != nullptr`. -/
def LockWrap.Held (w : LockWrap) : Bool := w.lock_.isSome

/-- The accessor `LockWrap::EjectedReason`. -/
def LockWrap.EjectedReason (w : LockWrap) : Lock.EjectedReason := w.reason_

/-- The enum `LockRequest::Status`. -/
inductive LockRequest.Status where
  | GRANTED
  | NOT_AVAILABLE
  | CANCELED
  deriving DecidableEq, Repr

/-- The immutable part of a `LockRequest` object: its address, `name_`,
`mode_` and `flags_` (bit 0 is `IF_AVAILABLE`, bit 1 is `STEAL`). -/
structure LockRequest where
  ptr : Nat
  name : String
  mode : Lock.Mode
  flags_ : Nat
  deriving DecidableEq, Repr

/-- The accessor `LockRequest::steal`: `flags_ & STEAL`. -/
def LockRequest.steal (r : LockRequest) : Bool := (r.flags_ / 2) % 2 == 1

/-- The accessor `LockRequest::if_available`: `flags_ & IF_AVAILABLE`. -/
def LockRequest.if_available (r : LockRequest) : Bool := r.flags_ % 2 == 1

/-- One call of `LockRequest::Notify(status, lock)` on the request at address
`request`: it stores `status_` and `lock_` and signals the async handle. -/
structure Notification where
  request : Nat
  status : LockRequest.Status
  lock : Option Nat
  deriving DecidableEq, Repr

/-- The process-wide `LockManager` (`requests_`, `held_`) together with the
objects its methods act on: the `LockWrap` handles that exist (`wraps`), the
calls of `Notify` made so far, oldest first (`notified`), the requests whose
async handle `OnNotify` has closed (`closed`), and the next unused address
(`next`). -/
structure LockManager where
  requests_ : List LockRequest
  held_ : List Lock
  wraps : List LockWrap
  notified : List Notification
  closed : List Nat
  next : Nat
  deriving DecidableEq, Repr

/-- The manager as constructed: nothing pending, nothing held. -/
def LockManager.empty : LockManager :=
  { requests_ := [], held_ := [], wraps := [], notified := [], closed := [], next := 0 }

/-! ## The deque operations used by the source -/

/-- The search `std::find` that opens `std::remove`: the first slot in
`[first, first + k)` equal to the value in slot `v`, or `first + k`. -/
def std_find {α : Type} (eq : α → α → Bool) (v : Nat) : Nat → Nat → List α → Nat
  | 0, first, _ => first
  | k + 1, first, slots =>
    match slots[first]?, slots[v]? with
    | some x, some value =>
      if eq x value then first else std_find eq v k (first + 1) slots
    | _, _ => first + (k + 1)

/-- The compaction loop of `std::remove`: for each slot `first` of the next
`k` slots, if it differs from the value in slot `v` (read afresh each time),
`*result = std::move(*first); ++result`.  `moved x` is what a slot holds after
`x` was moved out of it. -/
def std_remove_shift {α : Type} (eq : α → α → Bool) (moved : α → α) (v : Nat) :
    Nat → Nat → Nat → List α → Nat × List α
  | 0, _, result, slots => (result, slots)
  | k + 1, first, result, slots =>
    match slots[first]?, slots[v]? with
    | some x, some value =>
      if eq x value then std_remove_shift eq moved v k (first + 1) result slots
      else std_remove_shift eq moved v k (first + 1) (result + 1)
        ((slots.set first (moved x)).set result x)
    | _, _ => (result, slots)

/-- The call `std::remove(begin(), end(), value)` on a deque of `last` live
slots, `value` being a reference to slot `v`: the new logical end and the
slots afterwards. -/
def std_remove {α : Type} (eq : α → α → Bool) (moved : α → α) (slots : List α)
    (last v : Nat) : Nat × List α :=
  let first := std_find eq v last 0 slots
  if first = last then (last, slots)
  else std_remove_shift eq moved v (last - (first + 1)) (first + 1) first slots

/-- Destruction of the `k` slots from `first` on by `erase(first, end())`. -/
def destroy_slots {α : Type} (moved : α → α) : Nat → Nat → List α → List α
  | 0, _, slots => slots
  | k + 1, first, slots =>
    match slots[first]? with
    | some x => destroy_slots moved k (first + 1) (slots.set first (moved x))
    | none => slots

/-- The statement `d.erase(std::remove(d.begin(), d.end(), value), d.end())`
with `value` a reference to slot `v`: the new size and the slots. -/
def erase_remove {α : Type} (eq : α → α → Bool) (moved : α → α) (slots : List α)
    (size v : Nat) : Nat × List α :=
  let r := std_remove eq moved slots size v
  (r.1, destroy_slots moved (size - r.1) r.1 r.2)

/-- Equality of two `LockRequest*`. -/
def same_request (a b : LockRequest) : Bool := a.ptr == b.ptr

/-- Equality of two `std::unique_ptr<Lock>` (`none` is the null pointer). -/
def same_lock (a b : Option Lock) : Bool := a.map Lock.ptr == b.map Lock.ptr

/-- The erase-remove statement on `requests_`: raw pointers are copied by a
move and untouched by destruction. -/
def erase_request (slots : List LockRequest) (size v : Nat) : Nat × List LockRequest :=
  erase_remove same_request id slots size v

/-- The erase-remove statement on `held_`: a `unique_ptr` is null after it was
moved from or destroyed. -/
def erase_lock (slots : List (Option Lock)) (size v : Nat) : Nat × List (Option Lock) :=
  erase_remove same_lock (fun _ => none) slots size v

/-! ## Lock::Eject and LockRequest::Notify -/

/-- The method `Lock::Eject`: if the lock has an owner, the owner forgets the
lock and records the reason, and the lock forgets its owner. -/
def Lock.Eject (l : Lock) (reason : Lock.EjectedReason) (wraps : List LockWrap) :
    Lock × List LockWrap :=
  match l.owner_ with
  | none => (l, wraps)
  | some w =>
    ({ l with owner_ := none },
      wraps.map fun x => if x.ptr = w then { x with lock_ := none, reason_ := reason } else x)

/-- The method `LockRequest::Notify` called on the request at address
`request`. -/
def LockManager.Notify (m : LockManager) (request : Nat) (status : LockRequest.Status)
    (lock : Option Nat) : LockManager :=
  { m with notified := m.notified ++ [⟨request, status, lock⟩] }

/-! ## LockManager::IsGrantable -/

/-- The second loop of the exclusive branch of `IsGrantable`. -/
def IsGrantable.exclusive_scan (request : LockRequest) : List LockRequest → Bool
  | [] => true
  | req :: rest =>
    if request.ptr = req.ptr then true
    else if req.name = request.name then false
    else IsGrantable.exclusive_scan request rest

/-- The second loop of the shared branch of `IsGrantable`. -/
def IsGrantable.shared_scan (request : LockRequest) : List LockRequest → Bool
  | [] => true
  | req :: rest =>
    if request.ptr = req.ptr then true
    else if req.name = request.name ∧ req.mode = Lock.Mode.EXCLUSIVE then false
    else IsGrantable.shared_scan request rest

/-- The method `LockManager::IsGrantable`. -/
def LockManager.IsGrantable (m : LockManager) (request : LockRequest) : Bool :=
  if request.mode = Lock.Mode.EXCLUSIVE then
    if m.held_.any (fun lock => decide (lock.name = request.name)) then false
    else IsGrantable.exclusive_scan request m.requests_
  else
    if m.held_.any (fun lock =>
        decide (lock.name = request.name ∧ lock.mode = Lock.Mode.EXCLUSIVE)) then false
    else IsGrantable.shared_scan request m.requests_

/-! ## LockManager::ProcessQueue -/

/-- The body of the loop of `ProcessQueue` for slots `i, i+1, ...` (`k` of
them); `slots` are the slots of `requests_`, of which `m.requests_` are the
live ones. -/
def ProcessQueue.loop : Nat → Nat → List LockRequest → LockManager → LockManager
  | 0, _, _, m => m
  | k + 1, i, slots, m =>
    match slots[i]? with
    | none => m
    | some request =>
      if m.IsGrantable request then
        let lock : Lock := ⟨m.next, request.name, request.mode, none⟩
        let r := erase_request slots m.requests_.length i
        let m1 : LockManager :=
          { m with held_ := m.held_ ++ [lock], requests_ := r.2.take r.1, next := m.next + 1 }
        match r.2[i]? with
        | none => m1
        | some target =>
          ProcessQueue.loop k (i + 1) r.2
            (m1.Notify target.ptr LockRequest.Status.GRANTED (some lock.ptr))
      else ProcessQueue.loop k (i + 1) slots m

/-- The method `LockManager::ProcessQueue`. -/
def LockManager.ProcessQueue (m : LockManager) : LockManager :=
  ProcessQueue.loop m.requests_.length 0 m.requests_ m

/-! ## LockManager::Request, Cancel, Release -/

/-- The steal loop of `Request` (lines 133-140) for slots `i, i+1, ...` (`k`
of them) of `held_`, of which the first `size` are live.  A slot holding a
null `unique_ptr` makes `lock->name()` fault. -/
def Request.steal_loop (request : LockRequest) :
    Nat → Nat → List (Option Lock) → Nat → LockManager → Except LockManager LockManager
  | 0, _, _, _, m => Except.ok m
  | k + 1, i, slots, size, m =>
    match slots[i]? with
    | none => Except.ok m
    | some none => Except.error m
    | some (some lock) =>
      if lock.name = request.name then
        let e := lock.Eject Lock.EjectedReason.STOLEN m.wraps
        let r := erase_lock (slots.set i (some e.1)) size i
        Request.steal_loop request k (i + 1) r.2 r.1
          { m with held_ := (r.2.take r.1).reduceOption, wraps := e.2 }
      else Request.steal_loop request k (i + 1) slots size m

/-- The method `LockManager::Request`. -/
def LockManager.Request (m : LockManager) (request : LockRequest) :
    Except LockManager LockManager :=
  if request.steal then
    match Request.steal_loop request m.held_.length 0 (m.held_.map some) m.held_.length m with
    | Except.error f => Except.error f
    | Except.ok m1 =>
      Except.ok (LockManager.ProcessQueue { m1 with requests_ := request :: m1.requests_ })
  else if request.if_available ∧ ¬ m.IsGrantable request then
    Except.ok (m.Notify request.ptr LockRequest.Status.NOT_AVAILABLE none)
  else
    Except.ok (LockManager.ProcessQueue { m with requests_ := m.requests_ ++ [request] })

/-- The loop of `Cancel` for slots `i, i+1, ...` (`k` of them) of
`requests_`; it returns at the first slot equal to `request`. -/
def Cancel.loop (request : LockRequest) : Nat → Nat → LockManager → LockManager
  | 0, _, m => m
  | k + 1, i, m =>
    match m.requests_[i]? with
    | none => m
    | some req =>
      if req.ptr = request.ptr then
        let m1 := m.Notify req.ptr LockRequest.Status.CANCELED none
        let r := erase_request m1.requests_ m1.requests_.length i
        { m1 with requests_ := r.2.take r.1 }
      else Cancel.loop request k (i + 1) m

/-- The method `LockManager::Cancel`. -/
def LockManager.Cancel (m : LockManager) (request : LockRequest) : LockManager :=
  Cancel.loop request m.requests_.length 0 m

/-- The call `lock->Eject(reason)` made through the raw pointer `lock`: it
acts on the `Lock` object at that address.  Only the locks in `held_` exist;
a pointer to a lock that has been deleted finds no object to act on. -/
def LockManager.Eject (m : LockManager) (lock : Nat) (reason : Lock.EjectedReason) :
    LockManager :=
  match m.held_.find? (fun l => decide (l.ptr = lock)) with
  | none => m
  | some l =>
    { m with
      held_ := m.held_.map (fun x => if x.ptr = lock then (x.Eject reason m.wraps).1 else x),
      wraps := (l.Eject reason m.wraps).2 }

/-- The loop of `Release` (lines 113-119) for slots `i, i+1, ...` (`k` of
them) of `held_`, of which the first `size` are live. -/
def Release.loop (lock : Nat) :
    Nat → Nat → List (Option Lock) → Nat → LockManager → LockManager
  | 0, _, _, _, m => m
  | k + 1, i, slots, size, m =>
    match slots[i]? with
    | none => m
    | some other =>
      if other.map Lock.ptr = some lock then
        let r := erase_lock slots size i
        Release.loop lock k (i + 1) r.2 r.1 { m with held_ := (r.2.take r.1).reduceOption }
      else Release.loop lock k (i + 1) slots size m

/-- The method `LockManager::Release`. -/
def LockManager.Release (m : LockManager) (lock : Nat) : LockManager :=
  let m1 := m.Eject lock Lock.EjectedReason.RELEASED
  LockManager.ProcessQueue
    (Release.loop lock m1.held_.length 0 (m1.held_.map some) m1.held_.length m1)

/-! ## LockRequest::OnNotify and LockWrap::NewInstance -/

/-- The last `Notify` made on the request at address `request`: the values
of its `status_` and `lock_`. -/
def LockManager.last_notify (m : LockManager) (request : Nat) : Option Notification :=
  m.notified.reverse.find? (fun n => decide (n.request = request))

/-- The method `LockRequest::OnNotify` run for the request at address
`request` (the async callback): it runs only after a `Notify` and before the
handle is closed; when `lock_` is set `LockWrap::NewInstance` makes a handle
for it and writes `lock->owner_`; then the handle is closed. -/
def LockManager.OnNotify (m : LockManager) (request : Nat) : LockManager :=
  if request ∈ m.closed then m
  else
    match m.last_notify request with
    | none => m
    | some n =>
      match n.lock with
      | none => { m with closed := m.closed ++ [request] }
      | some l =>
        { m with
          wraps := m.wraps ++ [⟨m.next, some l, Lock.EjectedReason.NONE⟩],
          held_ := m.held_.map (fun x => if x.ptr = l then { x with owner_ := some m.next } else x),
          closed := m.closed ++ [request],
          next := m.next + 1 }

/-! ## The grantability test in the words of the specification -/

/-- The requests positioned strictly before the request at address `ptr` in
`queue`; when that request is not in the queue, the whole queue. -/
def requests_before (ptr : Nat) (queue : List LockRequest) : List LockRequest :=
  queue.takeWhile (fun req => decide (req.ptr ≠ ptr))

/-- The grantability test of the specification (section 4.1) for a request
`R` named `N`: an Exclusive `R` is grantable iff no held lock has name `N` and
no request before `R` in the queue has name `N`; a Shared `R` is grantable iff
no held lock named `N` is Exclusive and no request before `R` is an Exclusive
request for `N`. -/
def spec_grantable (held : List Lock) (queue : List LockRequest) (R : LockRequest) : Prop :=
  match R.mode with
  | Lock.Mode.EXCLUSIVE =>
    (∀ l ∈ held, l.name ≠ R.name) ∧ (∀ q ∈ requests_before R.ptr queue, q.name ≠ R.name)
  | Lock.Mode.SHARED =>
    (∀ l ∈ held, l.name = R.name → l.mode ≠ Lock.Mode.EXCLUSIVE) ∧
    (∀ q ∈ requests_before R.ptr queue, ¬ (q.name = R.name ∧ q.mode = Lock.Mode.EXCLUSIVE))

/-- The manager at the end of a call, whether the call returned or faulted. -/
def final_state : Except LockManager LockManager → LockManager
  | Except.ok m => m
  | Except.error m => m

/-! ## Mutual exclusion -/

/-- What a snapshot shows of a held lock: its name and mode. -/
def lock_key (l : Lock) : String × Lock.Mode := (l.name, l.mode)

/-- Two locks may be held together: if they have the same name, both are
Shared. -/
def compatible (a b : String × Lock.Mode) : Prop :=
  a.1 = b.1 → a.2 = Lock.Mode.SHARED ∧ b.2 = Lock.Mode.SHARED

/-- No Exclusive lock is held together with another lock of the same name. -/
def MutuallyExclusive (held : List Lock) : Prop :=
  (held.map lock_key).Pairwise compatible

/-! ## Sequences of calls -/

/-- One call into the coordinator. -/
inductive Op where
  | Request (request : LockRequest)
  | Cancel (request : LockRequest)
  | Release (lock : Nat)
  | OnNotify (request : Nat)
  deriving DecidableEq, Repr

/-- The effect of one call. -/
def LockManager.step (m : LockManager) : Op → Except LockManager LockManager
  | Op.Request request => m.Request request
  | Op.Cancel request => Except.ok (m.Cancel request)
  | Op.Release lock => Except.ok (m.Release lock)
  | Op.OnNotify request => Except.ok (m.OnNotify request)

/-- The effect of a sequence of calls, first to last; a fault ends it. -/
def LockManager.run (m : LockManager) : List Op → Except LockManager LockManager
  | [] => Except.ok m
  | op :: ops =>
    match m.step op with
    | Except.error f => Except.error f
    | Except.ok m1 => m1.run ops

/-- The addresses of the requests submitted by a sequence of calls. -/
def submitted : List Op → List Nat
  | [] => []
  | Op.Request r :: ops => r.ptr :: submitted ops
  | _ :: ops => submitted ops

/-- The notifications the request at address `request` has received, oldest
first. -/
def LockManager.notifications_of (m : LockManager) (request : Nat) : List Notification :=
  m.notified.filter (fun n => decide (n.request = request))

/-- The request at address `request` is in the pending queue. -/
def LockManager.pending (m : LockManager) (request : Nat) : Bool :=
  m.requests_.any (fun q => decide (q.ptr = request))

/-- The part of `Release` that runs with the mutex held (lines 112-120): the
loop over `held_` and the grant pass.  `Release` is the ejection of line 111
followed by this. -/
def Release.locked (m : LockManager) (lock : Nat) : LockManager :=
  LockManager.ProcessQueue (Release.loop lock m.held_.length 0 (m.held_.map some) m.held_.length m)

/-! ## LockManager::Snapshot and the exported snapshot function -/

/-- The enum `LockSnapshotType`. -/
inductive LockSnapshotType where
  | REQUEST
  | LOCK
  deriving DecidableEq, Repr

/-- The method `LockManager::Snapshot`: it calls the callback for every
request of `requests_` and then for every lock of `held_`; `s` is the state
the callback acts on.  The result is the manager after the call and the
state the callback has built. -/
def LockManager.Snapshot {σ : Type} (m : LockManager)
    (callback : σ → LockSnapshotType → String → Lock.Mode → σ) (s : σ) : LockManager × σ :=
  let s1 := m.requests_.foldl
    (fun acc request => callback acc LockSnapshotType.REQUEST request.name request.mode) s
  (m, m.held_.foldl (fun acc lock => callback acc LockSnapshotType.LOCK lock.name lock.mode) s1)

/-- The object built by the exported function `Snapshot`: the arrays
`pending` and `held` of items (name, mode as a string). -/
structure SnapshotObject where
  pending : List (String × String)
  held : List (String × String)
  deriving DecidableEq, Repr

/-- The exported function `Snapshot` (lines 334-361). -/
def Snapshot (m : LockManager) : SnapshotObject :=
  (m.Snapshot (fun (obj : SnapshotObject) type name mode =>
    let item := (name, if mode = Lock.Mode.EXCLUSIVE then "exclusive" else "shared")
    match type with
    | LockSnapshotType.REQUEST => { obj with pending := obj.pending ++ [item] }
    | LockSnapshotType.LOCK => { obj with held := obj.held ++ [item] })
    { pending := [], held := [] }).2

/-- The visits the specification asks of a snapshot: one per pending
request in queue order, tagged REQUEST, then one per held lock, tagged
LOCK. -/
def snapshot_visits (m : LockManager) : List (LockSnapshotType × String × Lock.Mode) :=
  m.requests_.map (fun request => (LockSnapshotType.REQUEST, request.name, request.mode)) ++
  m.held_.map (fun lock => (LockSnapshotType.LOCK, lock.name, lock.mode))

/-! ## The constructor of LockRequest -/

/-- The members a `LockRequest` has when its constructor calls
`lock_manager.Request(this)`: `mode_` is the integer the enum holds. -/
structure LockRequest.Fields where
  name_ : String
  mode_ : Int
  flags_ : Nat
  deriving DecidableEq, Repr

/-- The constructor `LockRequest::LockRequest` from line 275 on, for
arguments that passed the type checks of lines 245-273: `mode` is the 32-bit
integer `int32_t(info[1].As<Number>())`.  `Lock::Mode` is a scoped enum, so
the cast keeps the integer and `mode_ > Lock::Mode::SHARED` compares it with
1.  `Except.error` is the thrown `RangeError`; `Except.ok` means that the
constructor went on to line 298 and handed the request to
`LockManager::Request`. -/
def LockRequest.New (name : String) (mode : Int) (if_available steal : Bool) :
    Except String LockRequest.Fields :=
  if mode > 1 then Except.error "invalid lock mode"
  else
    let flags1 : Nat := if if_available then 0 ||| 1 else 0
    let flags2 : Nat := if steal then flags1 ||| 2 else flags1
    Except.ok { name_ := name, mode_ := mode, flags_ := flags2 }

/-! ## Blocking -/

/-- A held lock or an earlier request of this name and mode stands in the
way of the request `R`: it has the name of `R`, and `R` or it is
Exclusive. -/
def blocks (R : LockRequest) (name : String) (mode : Lock.Mode) : Prop :=
  name = R.name ∧ (R.mode = Lock.Mode.EXCLUSIVE ∨ mode = Lock.Mode.EXCLUSIVE)

/-! ## A grant made by the pass in progress -/

/-- An Exclusive request for x, a Shared request for y and a Shared request
for x, submitted in this order. -/
def scenario_mixed : List Op :=
  [Op.Request ⟨1, "x", Lock.Mode.EXCLUSIVE, 0⟩, Op.Request ⟨2, "y", Lock.Mode.SHARED, 0⟩,
   Op.Request ⟨3, "x", Lock.Mode.SHARED, 0⟩]

/-- The manager after `scenario_mixed`: x is held exclusively, y is held
shared, the Shared request for x waits. -/
def after_mixed : LockManager :=
  { requests_ := [⟨3, "x", Lock.Mode.SHARED, 0⟩],
    held_ := [⟨0, "x", Lock.Mode.EXCLUSIVE, none⟩, ⟨1, "y", Lock.Mode.SHARED, none⟩],
    wraps := [],
    notified := [⟨1, LockRequest.Status.GRANTED, some 0⟩, ⟨2, LockRequest.Status.GRANTED, some 1⟩],
    closed := [], next := 2 }

/-- Three Exclusive requests for x, submitted one after the other. -/
def scenario_waiting : List Op :=
  [Op.Request ⟨1, "x", Lock.Mode.EXCLUSIVE, 0⟩, Op.Request ⟨2, "x", Lock.Mode.EXCLUSIVE, 0⟩,
   Op.Request ⟨3, "x", Lock.Mode.EXCLUSIVE, 0⟩]

/-- The manager after `scenario_waiting`: the first request holds x (lock 0),
the second and the third wait. -/
def after_waiting : LockManager :=
  { requests_ := [⟨2, "x", Lock.Mode.EXCLUSIVE, 0⟩, ⟨3, "x", Lock.Mode.EXCLUSIVE, 0⟩],
    held_ := [⟨0, "x", Lock.Mode.EXCLUSIVE, none⟩],
    wraps := [],
    notified := [⟨1, LockRequest.Status.GRANTED, some 0⟩],
    closed := [], next := 1 }

/-- After `scenario_waiting`, the holder releases lock 0. -/
def scenario_handover : List Op := scenario_waiting ++ [Op.Release 0]

/-- The manager after `scenario_handover`: request 2 was granted lock 1 and
left the queue, request 3 waits. -/
def after_handover : LockManager :=
  { requests_ := [⟨3, "x", Lock.Mode.EXCLUSIVE, 0⟩],
    held_ := [⟨1, "x", Lock.Mode.EXCLUSIVE, none⟩],
    wraps := [],
    notified := [⟨1, LockRequest.Status.GRANTED, some 0⟩, ⟨3, LockRequest.Status.GRANTED, some 1⟩],
    closed := [], next := 2 }

/-- The manager after `scenario_handover` and the release of lock 1. -/
def after_second_handover : LockManager :=
  { requests_ := [],
    held_ := [⟨2, "x", Lock.Mode.EXCLUSIVE, none⟩],
    wraps := [],
    notified := [⟨1, LockRequest.Status.GRANTED, some 0⟩, ⟨3, LockRequest.Status.GRANTED, some 1⟩,
      ⟨3, LockRequest.Status.GRANTED, some 2⟩],
    closed := [], next := 3 }

/-- The manager with x and y held exclusively (locks 0 and 1), an Exclusive
request for x (3) and a Shared request for y (4) waiting: the state after
`Request` of 1 (x), 2 (y), 3 (x), 4 (y, Shared). -/
def scenario_two_names : List Op :=
  [Op.Request ⟨1, "x", Lock.Mode.EXCLUSIVE, 0⟩, Op.Request ⟨2, "y", Lock.Mode.EXCLUSIVE, 0⟩,
   Op.Request ⟨3, "x", Lock.Mode.EXCLUSIVE, 0⟩, Op.Request ⟨4, "y", Lock.Mode.SHARED, 0⟩]

/-- The manager after `scenario_two_names`. -/
def after_two_names : LockManager :=
  { requests_ := [⟨3, "x", Lock.Mode.EXCLUSIVE, 0⟩, ⟨4, "y", Lock.Mode.SHARED, 0⟩],
    held_ := [⟨0, "x", Lock.Mode.EXCLUSIVE, none⟩, ⟨1, "y", Lock.Mode.EXCLUSIVE, none⟩],
    wraps := [],
    notified := [⟨1, LockRequest.Status.GRANTED, some 0⟩, ⟨2, LockRequest.Status.GRANTED, some 1⟩],
    closed := [], next := 2 }

/-- The manager `after_two_names` once lock 0 has been taken out of the held
set: the state in which `Release(lock 0)` calls `ProcessQueue`. -/
def before_grant : LockManager :=
  { after_two_names with held_ := [⟨1, "y", Lock.Mode.EXCLUSIVE, none⟩] }

/-- A Shared lock on y is held (lock 0); an Exclusive request for y (2) and a
Shared request for y (3) wait.  No lock and no request is named x. -/
def scenario_fair_start : List Op :=
  [Op.Request ⟨1, "y", Lock.Mode.SHARED, 0⟩, Op.Request ⟨2, "y", Lock.Mode.EXCLUSIVE, 0⟩,
   Op.Request ⟨3, "y", Lock.Mode.SHARED, 0⟩]

/-- The manager after `scenario_fair_start`. -/
def fair_start : LockManager :=
  { requests_ := [⟨2, "y", Lock.Mode.EXCLUSIVE, 0⟩, ⟨3, "y", Lock.Mode.SHARED, 0⟩],
    held_ := [⟨0, "y", Lock.Mode.SHARED, none⟩],
    wraps := [],
    notified := [⟨1, LockRequest.Status.GRANTED, some 0⟩],
    closed := [], next := 1 }

/-- The request A = Exclusive(x) of the fairness scenario. -/
def fair_A : LockRequest := ⟨4, "x", Lock.Mode.EXCLUSIVE, 0⟩

/-- The request B = Exclusive(x) of the fairness scenario. -/
def fair_B : LockRequest := ⟨5, "x", Lock.Mode.EXCLUSIVE, 0⟩

/-- The manager after A and then B were submitted in `fair_start`: A holds x
(lock 1), B waits. -/
def fair_AB : LockManager :=
  { requests_ := [⟨2, "y", Lock.Mode.EXCLUSIVE, 0⟩, ⟨3, "y", Lock.Mode.SHARED, 0⟩, fair_B],
    held_ := [⟨0, "y", Lock.Mode.SHARED, none⟩, ⟨1, "x", Lock.Mode.EXCLUSIVE, none⟩],
    wraps := [],
    notified := [⟨1, LockRequest.Status.GRANTED, some 0⟩, ⟨4, LockRequest.Status.GRANTED, some 1⟩],
    closed := [], next := 2 }

/-- Further calls that neither release the lock of A, nor cancel B, nor steal
x: a third Exclusive request for x (6) and the cancellation of request 2. -/
def fair_between : List Op :=
  [Op.Request ⟨6, "x", Lock.Mode.EXCLUSIVE, 0⟩, Op.Cancel ⟨2, "y", Lock.Mode.EXCLUSIVE, 0⟩]

/-- The manager after `fair_between` in `fair_AB`. -/
def fair_waiting : LockManager :=
  { requests_ := [⟨3, "y", Lock.Mode.SHARED, 0⟩, fair_B, ⟨6, "x", Lock.Mode.EXCLUSIVE, 0⟩],
    held_ := [⟨0, "y", Lock.Mode.SHARED, none⟩, ⟨1, "x", Lock.Mode.EXCLUSIVE, none⟩],
    wraps := [],
    notified := [⟨1, LockRequest.Status.GRANTED, some 0⟩, ⟨4, LockRequest.Status.GRANTED, some 1⟩,
      ⟨2, LockRequest.Status.CANCELED, none⟩],
    closed := [], next := 2 }

/-- The manager after the release of the lock of A (lock 1) in
`fair_waiting`. -/
def fair_released : LockManager :=
  { requests_ := [fair_B, ⟨6, "x", Lock.Mode.EXCLUSIVE, 0⟩],
    held_ := [⟨0, "y", Lock.Mode.SHARED, none⟩, ⟨2, "y", Lock.Mode.SHARED, none⟩],
    wraps := [],
    notified := [⟨1, LockRequest.Status.GRANTED, some 0⟩, ⟨4, LockRequest.Status.GRANTED, some 1⟩,
      ⟨2, LockRequest.Status.CANCELED, none⟩, ⟨5, LockRequest.Status.GRANTED, some 2⟩],
    closed := [], next := 3 }

/-- Two Shared requests for x are granted and their notifications delivered,
so that each lock has a holder handle. -/
def scenario_two_readers : List Op :=
  [Op.Request ⟨1, "x", Lock.Mode.SHARED, 0⟩, Op.OnNotify 1,
   Op.Request ⟨2, "x", Lock.Mode.SHARED, 0⟩, Op.OnNotify 2]

/-- The manager after `scenario_two_readers`: locks 0 and 2 are held, with
the handles 1 and 3. -/
def two_readers : LockManager :=
  { requests_ := [],
    held_ := [⟨0, "x", Lock.Mode.SHARED, some 1⟩, ⟨2, "x", Lock.Mode.SHARED, some 3⟩],
    wraps := [⟨1, some 0, Lock.EjectedReason.NONE⟩, ⟨3, some 2, Lock.EjectedReason.NONE⟩],
    notified := [⟨1, LockRequest.Status.GRANTED, some 0⟩, ⟨2, LockRequest.Status.GRANTED, some 2⟩],
    closed := [1, 2], next := 4 }

/-- The manager at the fault of the steal request in `two_readers`: the first
reader has been ejected, the second has not. -/
def two_readers_fault : LockManager :=
  { requests_ := [],
    held_ := [⟨2, "x", Lock.Mode.SHARED, some 3⟩],
    wraps := [⟨1, none, Lock.EjectedReason.STOLEN⟩, ⟨3, some 2, Lock.EjectedReason.NONE⟩],
    notified := [⟨1, LockRequest.Status.GRANTED, some 0⟩, ⟨2, LockRequest.Status.GRANTED, some 2⟩],
    closed := [1, 2], next := 4 }

/-- An Exclusive lock on x is held (lock 0) and an Exclusive request for x
(2) waits. -/
def scenario_one_waiting : List Op :=
  [Op.Request ⟨1, "x", Lock.Mode.EXCLUSIVE, 0⟩, Op.Request ⟨2, "x", Lock.Mode.EXCLUSIVE, 0⟩]

/-- The manager after `scenario_one_waiting`. -/
def one_waiting : LockManager :=
  { requests_ := [⟨2, "x", Lock.Mode.EXCLUSIVE, 0⟩],
    held_ := [⟨0, "x", Lock.Mode.EXCLUSIVE, none⟩],
    wraps := [],
    notified := [⟨1, LockRequest.Status.GRANTED, some 0⟩],
    closed := [], next := 1 }

/-- The manager after the steal request 3 for x in `one_waiting`. -/
def after_steal : LockManager :=
  { requests_ := [⟨2, "x", Lock.Mode.EXCLUSIVE, 0⟩],
    held_ := [⟨1, "x", Lock.Mode.EXCLUSIVE, none⟩],
    wraps := [],
    notified := [⟨1, LockRequest.Status.GRANTED, some 0⟩, ⟨2, LockRequest.Status.GRANTED, some 1⟩],
    closed := [], next := 2 }

/-- The end-to-end scenario: the first request, Exclusive on doc. -/
def doc_first : LockRequest := ⟨1, "doc", Lock.Mode.EXCLUSIVE, 0⟩

/-- The end-to-end scenario: the second request, Shared on doc. -/
def doc_second : LockRequest := ⟨2, "doc", Lock.Mode.SHARED, 0⟩

/-- The manager after `Request(doc_first)` from the empty manager. -/
def doc_granted : LockManager :=
  { requests_ := [],
    held_ := [⟨0, "doc", Lock.Mode.EXCLUSIVE, none⟩],
    wraps := [],
    notified := [⟨1, LockRequest.Status.GRANTED, some 0⟩],
    closed := [], next := 1 }

/-- The manager after `Request(doc_second)` in `doc_granted`. -/
def doc_waiting : LockManager :=
  { doc_granted with requests_ := [doc_second] }

/-- The manager after the release of lock 0 in `doc_waiting`. -/
def doc_handed_over : LockManager :=
  { requests_ := [],
    held_ := [⟨1, "doc", Lock.Mode.SHARED, none⟩],
    wraps := [],
    notified := [⟨1, LockRequest.Status.GRANTED, some 0⟩, ⟨2, LockRequest.Status.GRANTED, some 1⟩],
    closed := [], next := 2 }

/-- An Exclusive lock on x is held (lock 0) and three Shared requests for x
(2, 3, 4) wait. -/
def scenario_three_readers : List Op :=
  [Op.Request ⟨1, "x", Lock.Mode.EXCLUSIVE, 0⟩, Op.Request ⟨2, "x", Lock.Mode.SHARED, 0⟩,
   Op.Request ⟨3, "x", Lock.Mode.SHARED, 0⟩, Op.Request ⟨4, "x", Lock.Mode.SHARED, 0⟩]

/-- The manager after `scenario_three_readers`. -/
def three_readers : LockManager :=
  { requests_ := [⟨2, "x", Lock.Mode.SHARED, 0⟩, ⟨3, "x", Lock.Mode.SHARED, 0⟩,
      ⟨4, "x", Lock.Mode.SHARED, 0⟩],
    held_ := [⟨0, "x", Lock.Mode.EXCLUSIVE, none⟩],
    wraps := [],
    notified := [⟨1, LockRequest.Status.GRANTED, some 0⟩],
    closed := [], next := 1 }

/-- The manager after the release of lock 0 in `three_readers`: requests 2
and 4 have left the queue, request 3 is still in it. -/
def three_readers_released : LockManager :=
  { requests_ := [⟨3, "x", Lock.Mode.SHARED, 0⟩],
    held_ := [⟨1, "x", Lock.Mode.SHARED, none⟩, ⟨2, "x", Lock.Mode.SHARED, none⟩,
      ⟨3, "x", Lock.Mode.SHARED, none⟩],
    wraps := [],
    notified := [⟨1, LockRequest.Status.GRANTED, some 0⟩, ⟨3, LockRequest.Status.GRANTED, some 1⟩,
      ⟨4, LockRequest.Status.GRANTED, some 2⟩, ⟨4, LockRequest.Status.GRANTED, some 3⟩],
    closed := [], next := 4 }

/-- Three Shared requests for x are pending and nothing is held: the state in
which `Release(lock 0)` calls `ProcessQueue` in `three_readers`. -/
def readers_before_pass : LockManager :=
  { three_readers with held_ := [] }

/-- A Shared lock on x is held (lock 0); an Exclusive request for x (2) waits
for it and a Shared request for x (3) waits behind request 2. -/
def scenario_blocked_reader : List Op :=
  [Op.Request ⟨1, "x", Lock.Mode.SHARED, 0⟩, Op.Request ⟨2, "x", Lock.Mode.EXCLUSIVE, 0⟩,
   Op.Request ⟨3, "x", Lock.Mode.SHARED, 0⟩]

/-- The manager after `scenario_blocked_reader`. -/
def blocked_reader : LockManager :=
  { requests_ := [⟨2, "x", Lock.Mode.EXCLUSIVE, 0⟩, ⟨3, "x", Lock.Mode.SHARED, 0⟩],
    held_ := [⟨0, "x", Lock.Mode.SHARED, none⟩],
    wraps := [],
    notified := [⟨1, LockRequest.Status.GRANTED, some 0⟩],
    closed := [], next := 1 }

/-- Request 1 is granted lock 0 on x; before its notification is delivered a
steal request 2 takes x; then the notification of request 1 is delivered. -/
def scenario_late_delivery : List Op :=
  [Op.Request ⟨1, "x", Lock.Mode.EXCLUSIVE, 0⟩, Op.Request ⟨2, "x", Lock.Mode.EXCLUSIVE, 2⟩,
   Op.OnNotify 1]

/-- The manager after `scenario_late_delivery`: lock 1 is held, and the
handle 2 refers to lock 0. -/
def late_delivery : LockManager :=
  { requests_ := [],
    held_ := [⟨1, "x", Lock.Mode.EXCLUSIVE, none⟩],
    wraps := [⟨2, some 0, Lock.EjectedReason.NONE⟩],
    notified := [⟨1, LockRequest.Status.GRANTED, some 0⟩, ⟨2, LockRequest.Status.GRANTED, some 1⟩],
    closed := [1], next := 3 }

/-- Request 1 holds x (lock 0) through the handle 1, and the Exclusive
request 2 for x waits. -/
def scenario_held_with_handle : List Op :=
  [Op.Request ⟨1, "x", Lock.Mode.EXCLUSIVE, 0⟩, Op.OnNotify 1,
   Op.Request ⟨2, "x", Lock.Mode.EXCLUSIVE, 0⟩]

/-- The manager after `scenario_held_with_handle`. -/
def held_with_handle : LockManager :=
  { requests_ := [⟨2, "x", Lock.Mode.EXCLUSIVE, 0⟩],
    held_ := [⟨0, "x", Lock.Mode.EXCLUSIVE, some 1⟩],
    wraps := [⟨1, some 0, Lock.EjectedReason.NONE⟩],
    notified := [⟨1, LockRequest.Status.GRANTED, some 0⟩],
    closed := [1], next := 2 }

/-- The steal request for x that one thread submits while another releases
lock 0. -/
def racing_steal : LockRequest := ⟨3, "x", Lock.Mode.EXCLUSIVE, 2⟩

/-! # Theorems -/

/-! ## The deque operations -/

theorem std_remove_shift_length {α : Type} (eq : α → α → Bool) (moved : α → α) (v : Nat) :
    ∀ (k first result : Nat) (slots : List α),
      (std_remove_shift eq moved v k first result slots).2.length = slots.length := by
  intro k
  induction k with
  | zero => intro first result slots; rfl
  | succ k ih =>
    intro first result slots
    unfold std_remove_shift
    split
    · split
      · exact ih _ _ _
      · rw [ih]; simp
    · rfl

theorem std_remove_shift_sublist {α : Type} (eq : α → α → Bool) (moved : α → α) (v : Nat) :
    ∀ (k first result : Nat) (slots : List α), result ≤ first →
      ((std_remove_shift eq moved v k first result slots).2.take
        (std_remove_shift eq moved v k first result slots).1).Sublist
        (slots.take result ++ (slots.drop first).take k) := by
  intro k
  induction k with
  | zero =>
    intro first result slots _
    simp [std_remove_shift]
  | succ k ih =>
    intro first result slots hle
    unfold std_remove_shift
    split
    · rename_i x value hx hv
      have hlt : first < slots.length := by
        rcases List.getElem?_eq_some.mp hx with ⟨h, _⟩; exact h
      have hdrop : slots.drop first = x :: slots.drop (first + 1) := by
        rw [List.drop_eq_getElem_cons hlt]
        congr 1
        rcases List.getElem?_eq_some.mp hx with ⟨_, h⟩; exact h
      split
      · refine (ih (first + 1) result slots (by omega)).trans ?_
        rw [hdrop, List.take_succ_cons]
        exact List.Sublist.append_left (List.sublist_cons_self _ _) _
      · refine (ih (first + 1) (result + 1) _ (by omega)).trans ?_
        rw [hdrop, List.take_succ_cons]
        have h1 : ((slots.set first (moved x)).set result x).take (result + 1)
            = slots.take result ++ [x] := by
          apply List.ext_getElem?
          intro n
          simp only [List.getElem?_take, List.getElem?_set, List.getElem?_append,
            List.length_take, List.length_set]
          by_cases hn : n < result
          · have : n < min result slots.length := by omega
            simp [hn, this, show n < result + 1 by omega, show result ≠ n by omega,
              show first ≠ n by omega]
          · by_cases hn2 : n = result
            · subst hn2
              have hm : n - min n slots.length = 0 := by omega
              simp [show n < slots.length by omega, hm]
            · have : ¬ n < min result slots.length := by omega
              simp [show ¬ n < result + 1 by omega, this]
              omega
        have h2 : ((slots.set first (moved x)).set result x).drop (first + 1)
            = slots.drop (first + 1) := by
          rw [List.drop_set_of_lt _ _ (by omega), List.drop_set_of_lt _ _ (by omega)]
        rw [h1, h2, List.append_assoc]
        exact List.Sublist.refl _
    · simp

theorem std_remove_shift_bound {α : Type} (eq : α → α → Bool) (moved : α → α) (v : Nat) :
    ∀ (k first result : Nat) (slots : List α),
      (std_remove_shift eq moved v k first result slots).1 ≤ result + k := by
  intro k
  induction k with
  | zero => intro first result slots; simp [std_remove_shift]
  | succ k ih =>
    intro first result slots
    unfold std_remove_shift
    split
    · rename_i x value _ _
      split
      · have := ih (first + 1) result slots; omega
      · have := ih (first + 1) (result + 1) ((slots.set first (moved x)).set result x); omega
    · simp

theorem std_find_bound {α : Type} (eq : α → α → Bool) (v : Nat) :
    ∀ (k first : Nat) (slots : List α), std_find eq v k first slots ≤ first + k := by
  intro k
  induction k with
  | zero => intro first slots; simp [std_find]
  | succ k ih =>
    intro first slots
    unfold std_find
    split
    · split
      · omega
      · have := ih (first + 1) slots; omega
    · omega

theorem take_skip_sublist {α : Type} (slots : List α) (f k : Nat) :
    (slots.take f ++ (slots.drop (f + 1)).take k).Sublist (slots.take (f + 1 + k)) := by
  rw [Nat.add_assoc, List.take_add]
  apply List.Sublist.append_left
  have h : slots.drop (f + 1) = (slots.drop f).drop 1 := by
    rw [List.drop_drop, Nat.add_comm]
  rw [h]
  cases slots.drop f with
  | nil => simp
  | cons x t =>
    rw [Nat.add_comm 1 k, List.take_succ_cons, List.drop_one, List.tail_cons]
    exact List.sublist_cons_self _ _

theorem std_remove_sublist {α : Type} (eq : α → α → Bool) (moved : α → α) (slots : List α)
    (last v : Nat) :
    ((std_remove eq moved slots last v).2.take (std_remove eq moved slots last v).1).Sublist
      (slots.take last) ∧
    (std_remove eq moved slots last v).2.length = slots.length ∧
    (std_remove eq moved slots last v).1 ≤ last := by
  unfold std_remove
  have hb := std_find_bound eq v last 0 slots
  simp only
  split
  · exact ⟨List.Sublist.refl _, rfl, le_refl _⟩
  · rename_i hne
    have hlt : std_find eq v last 0 slots < last := by omega
    refine ⟨?_, std_remove_shift_length _ _ _ _ _ _ _, ?_⟩
    · refine (std_remove_shift_sublist eq moved v _ _ _ slots (by omega)).trans ?_
      have := take_skip_sublist slots (std_find eq v last 0 slots)
        (last - (std_find eq v last 0 slots + 1))
      rwa [show std_find eq v last 0 slots + 1 + (last - (std_find eq v last 0 slots + 1)) = last
        by omega] at this
    · have := std_remove_shift_bound eq moved v (last - (std_find eq v last 0 slots + 1))
        (std_find eq v last 0 slots + 1) (std_find eq v last 0 slots) slots
      omega

theorem destroy_slots_length {α : Type} (moved : α → α) :
    ∀ (k first : Nat) (slots : List α), (destroy_slots moved k first slots).length = slots.length := by
  intro k
  induction k with
  | zero => intro first slots; rfl
  | succ k ih =>
    intro first slots
    unfold destroy_slots
    split
    · rw [ih]; simp
    · rfl

theorem destroy_slots_take {α : Type} (moved : α → α) :
    ∀ (k first : Nat) (slots : List α) (n : Nat), n ≤ first →
      (destroy_slots moved k first slots).take n = slots.take n := by
  intro k
  induction k with
  | zero => intro first slots n _; rfl
  | succ k ih =>
    intro first slots n hn
    unfold destroy_slots
    split
    · rw [ih _ _ _ (by omega)]
      by_cases h : n = first
      · subst h
        apply List.ext_getElem?
        intro i
        simp only [List.getElem?_take, List.getElem?_set]
        by_cases hi : i < n
        · simp [hi, show n ≠ i by omega]
        · simp [hi]
      · exact List.take_set_of_lt _ _ (by omega)
    · rfl

theorem erase_remove_sublist {α : Type} (eq : α → α → Bool) (moved : α → α) (slots : List α)
    (size v : Nat) :
    ((erase_remove eq moved slots size v).2.take (erase_remove eq moved slots size v).1).Sublist
      (slots.take size) ∧
    (erase_remove eq moved slots size v).2.length = slots.length ∧
    (erase_remove eq moved slots size v).1 ≤ size := by
  have h := std_remove_sublist eq moved slots size v
  unfold erase_remove
  simp only
  refine ⟨?_, ?_, h.2.2⟩
  · rw [destroy_slots_take _ _ _ _ _ (le_refl _)]
    exact h.1
  · rw [destroy_slots_length]
    exact h.2.1



theorem set_same {α : Type} (slots : List α) (i : Nat) (x : α) (h : slots[i]? = some x) :
    slots.set i x = slots := by
  apply List.ext_getElem?
  intro n
  rw [List.getElem?_set]
  by_cases hn : i = n
  · subst hn
    obtain ⟨hlt, _⟩ := List.getElem?_eq_some.mp h
    simp [hlt, h]
  · simp [hn]

theorem destroy_slots_id {α : Type} :
    ∀ (k first : Nat) (slots : List α), destroy_slots id k first slots = slots := by
  intro k
  induction k with
  | zero => intro first slots; rfl
  | succ k ih =>
    intro first slots
    unfold destroy_slots
    split
    · rename_i x hx
      rw [id, set_same slots first x hx]
      exact ih _ _
    · rfl

theorem std_find_exact {α : Type} (eq : α → α → Bool) (v p : Nat) (value y : α) :
    ∀ (k first : Nat) (slots : List α),
      slots[v]? = some value → slots[p]? = some y → eq y value = true →
      (∀ j x, first ≤ j → j < p → slots[j]? = some x → eq x value = false) →
      (∀ j, first ≤ j → j < p → j < slots.length) →
      first ≤ p → p < first + k →
      std_find eq v k first slots = p := by
  intro k
  induction k with
  | zero => intro first slots _ _ _ _ _ h1 h2; omega
  | succ k ih =>
    intro first slots hv hp hy hne hlen h1 h2
    unfold std_find
    by_cases hfp : first = p
    · subst hfp
      rw [hp, hv]
      simp [hy]
    · have hlt : first < slots.length := hlen first (le_refl _) (by omega)
      rw [List.getElem?_eq_getElem hlt, hv]
      have hx := hne first slots[first] (le_refl _) (by omega) (List.getElem?_eq_getElem hlt)
      simp only [hx, Bool.false_eq_true, if_false]
      exact ih (first + 1) slots hv hp hy
        (fun j x h3 h4 h5 => hne j x (by omega) h4 h5)
        (fun j h3 h4 => hlen j (by omega) h4) (by omega) (by omega)

theorem std_remove_shift_exact {α : Type} (eq : α → α → Bool) (v : Nat) (value : α) :
    ∀ (k first result : Nat) (slots : List α),
      v < result → result ≤ first → slots[v]? = some value → first + k ≤ slots.length →
      (∀ j x, first ≤ j → j < first + k → slots[j]? = some x → eq x value = false) →
      (std_remove_shift eq id v k first result slots).1 = result + k ∧
      ∀ n, (std_remove_shift eq id v k first result slots).2[n]? =
        if result ≤ n ∧ n < result + k then slots[n + (first - result)]? else slots[n]? := by
  intro k
  induction k with
  | zero =>
    intro first result slots _ _ _ _ _
    refine ⟨rfl, fun n => ?_⟩
    simp only [std_remove_shift]
    rw [if_neg (by omega)]
  | succ k ih =>
    intro first result slots hv hrf hval hlen hne
    unfold std_remove_shift
    have hlt : first < slots.length := by omega
    have hx := hne first slots[first] (le_refl _) (by omega) (List.getElem?_eq_getElem hlt)
    rw [List.getElem?_eq_getElem hlt, hval]
    simp only [hx, Bool.false_eq_true, if_false, id]
    rw [set_same slots first _ (List.getElem?_eq_getElem hlt)]
    have hs : ∀ n, (slots.set result slots[first])[n]? =
        if result = n then some slots[first] else slots[n]? := by
      intro n
      rw [List.getElem?_set]
      by_cases h : result = n
      · simp [h, show n < slots.length by omega]
      · simp [h]
    have := ih (first + 1) (result + 1) (slots.set result slots[first]) (by omega) (by omega)
      (by rw [hs, if_neg (by omega)]; exact hval) (by simp; omega)
      (fun j x h1 h2 h3 => hne j x (by omega) (by omega)
        (by rw [hs, if_neg (by omega)] at h3; exact h3))
    refine ⟨by rw [this.1]; omega, fun n => ?_⟩
    rw [this.2 n]
    by_cases h1 : result + 1 ≤ n ∧ n < result + 1 + k
    · rw [if_pos h1, if_pos (by omega), hs, if_neg (by omega)]
      congr 1
      omega
    · rw [if_neg h1, hs]
      by_cases h2 : result = n
      · subst h2
        rw [if_pos rfl, if_pos (by omega)]
        rw [show result + (first - result) = first by omega, List.getElem?_eq_getElem hlt]
      · rw [if_neg h2, if_neg (by omega)]

/-- The erase-remove statement on a deque whose live slots hold pairwise
different pointers, called with a reference to the live slot `v`: exactly
that slot is removed, the later live slots move one place down, and every
slot from the new end on keeps what it held. -/
theorem erase_remove_alias {α : Type} (eq : α → α → Bool) (slots : List α) (size v : Nat)
    (hv : v < size) (hsize : size ≤ slots.length)
    (hrefl : ∀ x, eq x x = true)
    (hnd : ∀ i j x y, i < size → j < size → slots[i]? = some x → slots[j]? = some y →
      eq x y = true → i = j) :
    (erase_remove eq id slots size v).1 = size - 1 ∧
    ∀ n, (erase_remove eq id slots size v).2[n]? =
      if v ≤ n ∧ n < size - 1 then slots[n + 1]? else slots[n]? := by
  unfold erase_remove
  simp only [destroy_slots_id]
  unfold std_remove
  have hvl : v < slots.length := by omega
  have hfind : std_find eq v size 0 slots = v :=
    std_find_exact eq v v slots[v] slots[v] size 0 slots (List.getElem?_eq_getElem hvl)
      (List.getElem?_eq_getElem hvl) (hrefl _)
      (fun j x _ h2 h3 => by
        cases hb : eq x slots[v] with
        | false => rfl
        | true =>
          have := hnd j v x slots[v] (by omega) hv h3 (List.getElem?_eq_getElem hvl) hb
          omega)
      (fun j _ h2 => by omega) (Nat.zero_le _) (by omega)
  simp only [hfind]
  rw [if_neg (by omega)]
  by_cases hlast : v + 1 = size
  · rw [show size - (v + 1) = 0 by omega]
    simp only [std_remove_shift]
    refine ⟨by omega, fun n => ?_⟩
    rw [if_neg (by omega)]
  · obtain ⟨k, hk⟩ : ∃ k, size - (v + 1) = k + 1 := ⟨size - (v + 1) - 1, by omega⟩
    rw [hk]
    unfold std_remove_shift
    have hlt : v + 1 < slots.length := by omega
    rw [List.getElem?_eq_getElem hlt, List.getElem?_eq_getElem hvl]
    have hx : eq slots[v + 1] slots[v] = false := by
      cases hb : eq slots[v + 1] slots[v] with
      | false => rfl
      | true =>
        have := hnd (v + 1) v _ _ (by omega) hv (List.getElem?_eq_getElem hlt)
          (List.getElem?_eq_getElem hvl) hb
        omega
    simp only [hx, Bool.false_eq_true, if_false, id]
    rw [set_same slots (v + 1) _ (List.getElem?_eq_getElem hlt)]
    have hs : ∀ n, (slots.set v slots[v + 1])[n]? =
        if v = n then some slots[v + 1] else slots[n]? := by
      intro n
      rw [List.getElem?_set]
      by_cases h : v = n
      · simp [h, show n < slots.length by omega]
      · simp [h]
    have := std_remove_shift_exact eq v slots[v + 1] k (v + 1 + 1) (v + 1)
      (slots.set v slots[v + 1]) (by omega) (by omega) (by rw [hs, if_pos rfl])
      (by simp; omega)
      (fun j x h1 h2 h3 => by
        rw [hs, if_neg (by omega)] at h3
        cases hb : eq x slots[v + 1] with
        | false => rfl
        | true =>
          have := hnd j (v + 1) x _ (by omega) (by omega) h3 (List.getElem?_eq_getElem hlt) hb
          omega)
    refine ⟨by rw [this.1]; omega, fun n => ?_⟩
    rw [this.2 n]
    by_cases h1 : v + 1 ≤ n ∧ n < v + 1 + k
    · rw [if_pos h1, if_pos (by omega), hs, if_neg (by omega)]
      congr 1
      omega
    · rw [if_neg h1, hs]
      by_cases h2 : v = n
      · subst h2
        rw [if_pos rfl, if_pos (by omega), List.getElem?_eq_getElem hlt]
      · rw [if_neg h2, if_neg (by omega)]

/-! ## IsGrantable -/

theorem exclusive_scan_iff (R : LockRequest) (queue : List LockRequest) :
    IsGrantable.exclusive_scan R queue = true ↔
      ∀ q ∈ requests_before R.ptr queue, q.name ≠ R.name := by
  induction queue with
  | nil => simp [IsGrantable.exclusive_scan, requests_before]
  | cons req rest ih =>
    unfold requests_before at ih ⊢
    by_cases hp : R.ptr = req.ptr
    · have hp2 : ¬ req.ptr ≠ R.ptr := fun h => h hp.symm
      simp [IsGrantable.exclusive_scan, hp, List.takeWhile_cons]
    · have hp2 : req.ptr ≠ R.ptr := fun h => hp h.symm
      by_cases hn : req.name = R.name
      · simp [IsGrantable.exclusive_scan, hp, hp2, hn, List.takeWhile_cons]
      · simp [IsGrantable.exclusive_scan, hp, hp2, hn, List.takeWhile_cons, ih]

theorem shared_scan_iff (R : LockRequest) (queue : List LockRequest) :
    IsGrantable.shared_scan R queue = true ↔
      ∀ q ∈ requests_before R.ptr queue,
        ¬ (q.name = R.name ∧ q.mode = Lock.Mode.EXCLUSIVE) := by
  induction queue with
  | nil => simp [IsGrantable.shared_scan, requests_before]
  | cons req rest ih =>
    unfold requests_before at ih ⊢
    by_cases hp : R.ptr = req.ptr
    · have hp2 : ¬ req.ptr ≠ R.ptr := fun h => h hp.symm
      simp [IsGrantable.shared_scan, hp, List.takeWhile_cons]
    · have hp2 : req.ptr ≠ R.ptr := fun h => hp h.symm
      by_cases hn : req.name = R.name ∧ req.mode = Lock.Mode.EXCLUSIVE
      · simp [IsGrantable.shared_scan, hp, hp2, hn, List.takeWhile_cons]
      · have hd : decide (req.ptr ≠ R.ptr) = true := decide_eq_true hp2
        simp only [IsGrantable.shared_scan, hp, hn, if_false, List.takeWhile_cons, hd,
          if_true, List.mem_cons, forall_eq_or_imp, not_false_eq_true, true_and]
        exact ih

theorem IsGrantable_iff (m : LockManager) (R : LockRequest) :
    m.IsGrantable R = true ↔ spec_grantable m.held_ m.requests_ R := by
  unfold LockManager.IsGrantable spec_grantable
  cases hm : R.mode with
  | EXCLUSIVE =>
    rw [if_pos rfl]
    by_cases hh : (m.held_.any fun lock => decide (lock.name = R.name)) = true
    · rw [if_pos hh]
      constructor
      · intro h; cases h
      · rintro ⟨h1, _⟩
        rw [List.any_eq_true] at hh
        obtain ⟨l, hl, hd⟩ := hh
        exact absurd (of_decide_eq_true hd) (h1 l hl)
    · rw [if_neg hh, exclusive_scan_iff]
      constructor
      · intro h
        refine ⟨?_, h⟩
        intro l hl hn
        exact hh (List.any_eq_true.mpr ⟨l, hl, decide_eq_true hn⟩)
      · exact fun h => h.2
  | SHARED =>
    have hne : ¬ (Lock.Mode.SHARED = Lock.Mode.EXCLUSIVE) := by decide
    rw [if_neg hne]
    by_cases hh : (m.held_.any fun lock =>
        decide (lock.name = R.name ∧ lock.mode = Lock.Mode.EXCLUSIVE)) = true
    · rw [if_pos hh]
      constructor
      · intro h; cases h
      · rintro ⟨h1, _⟩
        rw [List.any_eq_true] at hh
        obtain ⟨l, hl, hd⟩ := hh
        have := of_decide_eq_true hd
        exact absurd this.2 (h1 l hl this.1)
    · rw [if_neg hh, shared_scan_iff]
      constructor
      · intro h
        refine ⟨?_, h⟩
        intro l hl hn he
        exact hh (List.any_eq_true.mpr ⟨l, hl, decide_eq_true ⟨hn, he⟩⟩)
      · exact fun h => h.2

theorem requests_before_append (R : LockRequest) (pre post : List LockRequest)
    (hpre : ∀ q ∈ pre, q.ptr ≠ R.ptr) :
    requests_before R.ptr (pre ++ R :: post) = pre := by
  unfold requests_before
  induction pre with
  | nil => simp [List.takeWhile_cons]
  | cons a rest ih =>
    have ha : a.ptr ≠ R.ptr := hpre a (List.mem_cons_self _ _)
    simp only [List.cons_append, List.takeWhile_cons, ha, ne_eq, not_false_eq_true,
      decide_True, if_true]
    rw [ih (fun q hq => hpre q (List.mem_cons_of_mem _ hq))]

theorem requests_before_absent (ptr : Nat) (queue : List LockRequest)
    (h : ∀ q ∈ queue, q.ptr ≠ ptr) : requests_before ptr queue = queue := by
  unfold requests_before
  rw [List.takeWhile_eq_self_iff]
  intro q hq
  exact decide_eq_true (h q hq)

/-- C2: `IsGrantable` is the grantability test of the specification.  For
every held set, queue and request `R`: `IsGrantable(R)` holds iff the
specification's test holds (Exclusive: no held lock of that name and no
request of that name before `R`; Shared: no Exclusive held lock of that name
and no Exclusive request of that name before `R`); the requests positioned
after `R` do not change the result; and when `R` is not in the queue the
requests before it are the whole queue, so that the result is the one for `R`
appended at the end. -/
theorem IsGrantable_eq_spec (m : LockManager) (R : LockRequest) :
    (m.IsGrantable R = true ↔ spec_grantable m.held_ m.requests_ R) ∧
    (∀ pre post post2 : List LockRequest, (∀ q ∈ pre, q.ptr ≠ R.ptr) →
      requests_before R.ptr (pre ++ R :: post) = pre ∧
      LockManager.IsGrantable { m with requests_ := pre ++ R :: post } R =
        LockManager.IsGrantable { m with requests_ := pre ++ R :: post2 } R) ∧
    ((∀ q ∈ m.requests_, q.ptr ≠ R.ptr) →
      requests_before R.ptr m.requests_ = m.requests_ ∧
      m.IsGrantable R =
        LockManager.IsGrantable { m with requests_ := m.requests_ ++ [R] } R) := by
  refine ⟨IsGrantable_iff m R, ?_, ?_⟩
  · intro pre post post2 hpre
    refine ⟨requests_before_append R pre post hpre, ?_⟩
    rw [Bool.eq_iff_iff, IsGrantable_iff, IsGrantable_iff]
    simp only [spec_grantable, requests_before_append R pre _ hpre]
  · intro habs
    refine ⟨requests_before_absent _ _ habs, ?_⟩
    rw [Bool.eq_iff_iff, IsGrantable_iff, IsGrantable_iff]
    have h1 : requests_before R.ptr (m.requests_ ++ [R]) = m.requests_ :=
      requests_before_append R m.requests_ [] habs
    simp only [spec_grantable, h1, requests_before_absent _ _ habs]

/-! ## What the loops keep -/

theorem compatible_symm (a b : String × Lock.Mode) (h : compatible a b) : compatible b a := by
  intro hn
  have := h hn.symm
  exact ⟨this.2, this.1⟩

theorem grant_keeps_exclusion (m : LockManager) (request : LockRequest) (p : Nat)
    (o : Option Nat) (hg : m.IsGrantable request = true) (hm : MutuallyExclusive m.held_) :
    MutuallyExclusive (m.held_ ++ [⟨p, request.name, request.mode, o⟩]) := by
  unfold MutuallyExclusive at hm ⊢
  rw [List.map_append, List.pairwise_append]
  refine ⟨hm, by simp, ?_⟩
  intro a ha b hb
  simp only [List.map_cons, List.map_nil, List.mem_singleton] at hb
  subst hb
  obtain ⟨l, hl, rfl⟩ := List.mem_map.mp ha
  have hs := (IsGrantable_iff m request).mp hg
  unfold spec_grantable at hs
  intro hn
  simp only [lock_key] at hn ⊢
  cases hmode : request.mode with
  | EXCLUSIVE =>
    rw [hmode] at hs
    exact absurd hn (hs.1 l hl)
  | SHARED =>
    rw [hmode] at hs
    refine ⟨?_, rfl⟩
    have := hs.1 l hl hn
    cases hl2 : l.mode with
    | EXCLUSIVE => exact absurd hl2 this
    | SHARED => rfl

theorem exclusion_of_sublist (a b : List Lock) (h : (a.map lock_key).Sublist (b.map lock_key))
    (hb : MutuallyExclusive b) : MutuallyExclusive a :=
  List.Pairwise.sublist h hb

/-- What `ProcessQueue.loop` keeps: mutual exclusion of the held set, and the
queue only loses requests. -/
theorem ProcessQueue_loop_keeps :
    ∀ (k i : Nat) (slots : List LockRequest) (m : LockManager),
      m.requests_.length ≤ slots.length → slots.take m.requests_.length = m.requests_ →
      (MutuallyExclusive m.held_ → MutuallyExclusive (ProcessQueue.loop k i slots m).held_) ∧
      (ProcessQueue.loop k i slots m).requests_.Sublist m.requests_ ∧
      (ProcessQueue.loop k i slots m).wraps = m.wraps ∧
      (ProcessQueue.loop k i slots m).closed = m.closed := by
  intro k
  induction k with
  | zero => intro i slots m _ _; exact ⟨fun hm => hm, List.Sublist.refl _, rfl, rfl⟩
  | succ k ih =>
    intro i slots m hlen htake
    unfold ProcessQueue.loop
    split
    · exact ⟨fun hm => hm, List.Sublist.refl _, rfl, rfl⟩
    · rename_i request hreq
      split
      · rename_i hg
        have hs := erase_remove_sublist same_request id slots m.requests_.length i
        have hsub : ((erase_request slots m.requests_.length i).2.take
            (erase_request slots m.requests_.length i).1).Sublist m.requests_ := by
          have := hs.1
          rwa [htake] at this
        have hme := grant_keeps_exclusion m request m.next none hg
        simp only
        split
        · exact ⟨hme, hsub, rfl, rfl⟩
        · rename_i target _
          have hl : (erase_request slots m.requests_.length i).1 ≤
              (erase_request slots m.requests_.length i).2.length := by
            have h1 := hs.2.1
            have h2 := hs.2.2
            unfold erase_request
            omega
          have := ih (i + 1) (erase_request slots m.requests_.length i).2
            (LockManager.Notify
              { m with held_ := m.held_ ++ [⟨m.next, request.name, request.mode, none⟩],
                       requests_ := (erase_request slots m.requests_.length i).2.take
                          (erase_request slots m.requests_.length i).1,
                       next := m.next + 1 }
              target.ptr LockRequest.Status.GRANTED (some m.next))
            (by simp [LockManager.Notify, List.length_take])
            (by simp [LockManager.Notify, List.length_take, hl])
          refine ⟨fun hm => this.1 (by simpa [LockManager.Notify] using hme hm),
            this.2.1.trans ?_, ?_, ?_⟩
          · simpa [LockManager.Notify] using hsub
          · simpa [LockManager.Notify] using this.2.2.1
          · simpa [LockManager.Notify] using this.2.2.2
      · exact ih (i + 1) slots m hlen htake

theorem ProcessQueue_keeps (m : LockManager) :
    (MutuallyExclusive m.held_ → MutuallyExclusive m.ProcessQueue.held_) ∧
    m.ProcessQueue.requests_.Sublist m.requests_ ∧
    m.ProcessQueue.wraps = m.wraps ∧ m.ProcessQueue.closed = m.closed :=
  ProcessQueue_loop_keeps _ 0 m.requests_ m (le_refl _) (List.take_length _)

theorem Eject_key (l : Lock) (reason : Lock.EjectedReason) (wraps : List LockWrap) :
    lock_key (l.Eject reason wraps).1 = lock_key l := by
  unfold Lock.Eject
  cases l.owner_ <;> rfl

theorem keys_sublist (a b : List (Option Lock)) (h : a.Sublist b) :
    (a.reduceOption.map lock_key).Sublist (b.reduceOption.map lock_key) :=
  (List.Sublist.filterMap id h).map lock_key

theorem keys_set (slots : List (Option Lock)) (i size : Nat) (old new : Lock)
    (hi : slots[i]? = some (some old)) (hk : lock_key new = lock_key old) :
    ((slots.set i (some new)).take size).reduceOption.map lock_key =
      (slots.take size).reduceOption.map lock_key := by
  rw [← List.reduceOption_map, ← List.reduceOption_map, List.map_take, List.map_take,
    List.map_set]
  congr 2
  apply List.ext_getElem?
  intro n
  rw [List.getElem?_set]
  by_cases hn : i = n
  · subst hn
    obtain ⟨hlt, hget⟩ := List.getElem?_eq_some.mp hi
    simp [hlt, hget, hk]
  · simp [hn]

theorem steal_loop_keeps (request : LockRequest) :
    ∀ (k i : Nat) (slots : List (Option Lock)) (size : Nat) (m : LockManager),
      m.held_ = (slots.take size).reduceOption →
      ((final_state (Request.steal_loop request k i slots size m)).held_.map lock_key).Sublist
        (m.held_.map lock_key) ∧
      (final_state (Request.steal_loop request k i slots size m)).requests_ = m.requests_ ∧
      (final_state (Request.steal_loop request k i slots size m)).notified = m.notified ∧
      (final_state (Request.steal_loop request k i slots size m)).closed = m.closed ∧
      (final_state (Request.steal_loop request k i slots size m)).next = m.next := by
  intro k
  induction k with
  | zero => intro i slots size m _; exact ⟨List.Sublist.refl _, rfl, rfl, rfl, rfl⟩
  | succ k ih =>
    intro i slots size m hinv
    unfold Request.steal_loop
    split
    · exact ⟨List.Sublist.refl _, rfl, rfl, rfl, rfl⟩
    · exact ⟨List.Sublist.refl _, rfl, rfl, rfl, rfl⟩
    · rename_i lock hlock
      split
      · have hs := erase_remove_sublist same_lock (fun _ => none)
          (slots.set i (some (lock.Eject Lock.EjectedReason.STOLEN m.wraps).1)) size i
        have := ih (i + 1)
          (erase_lock (slots.set i (some (lock.Eject Lock.EjectedReason.STOLEN m.wraps).1)) size i).2
          (erase_lock (slots.set i (some (lock.Eject Lock.EjectedReason.STOLEN m.wraps).1)) size i).1
          { m with
            held_ := ((erase_lock (slots.set i
              (some (lock.Eject Lock.EjectedReason.STOLEN m.wraps).1)) size i).2.take
                (erase_lock (slots.set i
              (some (lock.Eject Lock.EjectedReason.STOLEN m.wraps).1)) size i).1).reduceOption,
            wraps := (lock.Eject Lock.EjectedReason.STOLEN m.wraps).2 } rfl
        refine ⟨this.1.trans ?_, this.2⟩
        simp only
        rw [hinv, ← keys_set slots i size lock _ hlock (Eject_key _ _ _)]
        exact keys_sublist _ _ hs.1
      · exact ih (i + 1) slots size m hinv

theorem Release_loop_keeps (lock : Nat) :
    ∀ (k i : Nat) (slots : List (Option Lock)) (size : Nat) (m : LockManager),
      m.held_ = (slots.take size).reduceOption →
      ((Release.loop lock k i slots size m).held_.map lock_key).Sublist
        (m.held_.map lock_key) ∧
      (Release.loop lock k i slots size m).requests_ = m.requests_ ∧
      (Release.loop lock k i slots size m).notified = m.notified ∧
      (Release.loop lock k i slots size m).closed = m.closed ∧
      (Release.loop lock k i slots size m).next = m.next ∧
      (Release.loop lock k i slots size m).wraps = m.wraps := by
  intro k
  induction k with
  | zero => intro i slots size m _; exact ⟨List.Sublist.refl _, rfl, rfl, rfl, rfl, rfl⟩
  | succ k ih =>
    intro i slots size m hinv
    unfold Release.loop
    split
    · exact ⟨List.Sublist.refl _, rfl, rfl, rfl, rfl, rfl⟩
    · split
      · have hs := erase_remove_sublist same_lock (fun _ => none) slots size i
        have := ih (i + 1) (erase_lock slots size i).2 (erase_lock slots size i).1
          { m with held_ := ((erase_lock slots size i).2.take
              (erase_lock slots size i).1).reduceOption } rfl
        refine ⟨this.1.trans ?_, this.2⟩
        simp only
        rw [hinv]
        exact keys_sublist _ _ hs.1
      · exact ih (i + 1) slots size m hinv

theorem reduceOption_map_some (held : List Lock) :
    ((held.map some).take held.length).reduceOption = held := by
  have : (held.map some).take held.length = held.map some := by
    rw [List.take_of_length_le]; simp
  rw [this]
  induction held with
  | nil => rfl
  | cons a t ih => simp [List.reduceOption_cons_of_some, ih]

theorem manager_Eject_keys (m : LockManager) (lock : Nat) (reason : Lock.EjectedReason) :
    (m.Eject lock reason).held_.map lock_key = m.held_.map lock_key ∧
    (m.Eject lock reason).requests_ = m.requests_ ∧
    (m.Eject lock reason).notified = m.notified ∧
    (m.Eject lock reason).closed = m.closed ∧
    (m.Eject lock reason).next = m.next := by
  unfold LockManager.Eject
  split
  · exact ⟨rfl, rfl, rfl, rfl, rfl⟩
  · refine ⟨?_, rfl, rfl, rfl, rfl⟩
    simp only [List.map_map]
    apply List.map_congr_left
    intro x _
    simp only [Function.comp]
    split
    · exact Eject_key _ _ _
    · rfl

theorem OnNotify_keys (m : LockManager) (request : Nat) :
    (m.OnNotify request).held_.map lock_key = m.held_.map lock_key ∧
    (m.OnNotify request).requests_ = m.requests_ ∧
    (m.OnNotify request).notified = m.notified := by
  unfold LockManager.OnNotify
  split
  · exact ⟨rfl, rfl, rfl⟩
  · split
    · exact ⟨rfl, rfl, rfl⟩
    · split
      · exact ⟨rfl, rfl, rfl⟩
      · refine ⟨?_, rfl, rfl⟩
        simp only [List.map_map]
        apply List.map_congr_left
        intro x _
        simp only [Function.comp]
        split <;> rfl

theorem Cancel_loop_keeps (request : LockRequest) :
    ∀ (k i : Nat) (m : LockManager),
      (Cancel.loop request k i m).held_ = m.held_ ∧
      (Cancel.loop request k i m).requests_.Sublist m.requests_ ∧
      (Cancel.loop request k i m).wraps = m.wraps ∧
      (Cancel.loop request k i m).closed = m.closed ∧
      (Cancel.loop request k i m).next = m.next := by
  intro k
  induction k with
  | zero => intro i m; exact ⟨rfl, List.Sublist.refl _, rfl, rfl, rfl⟩
  | succ k ih =>
    intro i m
    unfold Cancel.loop
    split
    · exact ⟨rfl, List.Sublist.refl _, rfl, rfl, rfl⟩
    · split
      · refine ⟨rfl, ?_, rfl, rfl, rfl⟩
        have hs := erase_remove_sublist same_request id m.requests_ m.requests_.length i
        have := hs.1
        rw [List.take_length] at this
        exact this
      · exact ih (i + 1) m

/-! ## Mutual exclusion -/

theorem step_keeps_exclusion (m m1 : LockManager) (op : Op) (hm : MutuallyExclusive m.held_)
    (h : m.step op = Except.ok m1) : MutuallyExclusive m1.held_ := by
  cases op with
  | Request request =>
    simp only [LockManager.step, LockManager.Request] at h
    split at h
    · have hk := steal_loop_keeps request m.held_.length 0 (m.held_.map some) m.held_.length m
        (reduceOption_map_some m.held_).symm
      split at h
      · cases h
      · rename_i m2 hres
        rw [hres] at hk
        simp only [final_state] at hk
        have h2 : MutuallyExclusive m2.held_ := exclusion_of_sublist _ _ hk.1 hm
        cases h
        exact (ProcessQueue_keeps { m2 with requests_ := request :: m2.requests_ }).1 h2
    · split at h
      · cases h
        exact hm
      · cases h
        exact (ProcessQueue_keeps { m with requests_ := m.requests_ ++ [request] }).1 hm
  | Cancel request =>
    simp only [LockManager.step, LockManager.Cancel] at h
    cases h
    rw [(Cancel_loop_keeps request _ 0 m).1]
    exact hm
  | Release lock =>
    simp only [LockManager.step, LockManager.Release] at h
    cases h
    apply (ProcessQueue_keeps _).1
    have he := manager_Eject_keys m lock Lock.EjectedReason.RELEASED
    have hl := Release_loop_keeps lock (m.Eject lock Lock.EjectedReason.RELEASED).held_.length 0
      ((m.Eject lock Lock.EjectedReason.RELEASED).held_.map some)
      (m.Eject lock Lock.EjectedReason.RELEASED).held_.length
      (m.Eject lock Lock.EjectedReason.RELEASED) (reduceOption_map_some _).symm
    refine exclusion_of_sublist _ _ hl.1 ?_
    unfold MutuallyExclusive
    rw [he.1]
    exact hm
  | OnNotify request =>
    simp only [LockManager.step] at h
    cases h
    unfold MutuallyExclusive
    rw [(OnNotify_keys m request).1]
    exact hm

theorem run_keeps_exclusion (ops : List Op) :
    ∀ (m m1 : LockManager), MutuallyExclusive m.held_ → m.run ops = Except.ok m1 →
      MutuallyExclusive m1.held_ := by
  induction ops with
  | nil =>
    intro m m1 hm h
    simp only [LockManager.run] at h
    cases h
    exact hm
  | cons op ops ih =>
    intro m m1 hm h
    simp only [LockManager.run] at h
    split at h
    · cases h
    · rename_i m2 hstep
      exact ih m2 m1 (step_keeps_exclusion m m2 op hm hstep) h

theorem exclusion_index (held : List Lock) (hm : MutuallyExclusive held) (i j : Nat)
    (hi : i < held.length) (hj : j < held.length) (hij : i ≠ j)
    (he : held[i].mode = Lock.Mode.EXCLUSIVE) : held[i].name ≠ held[j].name := by
  unfold MutuallyExclusive at hm
  rw [List.pairwise_map, List.pairwise_iff_getElem] at hm
  intro hn
  rcases Nat.lt_or_gt_of_ne hij with h | h
  · have := (hm i j hi hj h hn).1
    simp only [lock_key] at this
    rw [he] at this
    cases this
  · have := (hm j i hj hi h hn.symm).2
    simp only [lock_key] at this
    rw [he] at this
    cases this

/-- C1: mutual exclusion.  In every state reached from the empty manager by a
finite sequence of Request (any name, mode and flags), Cancel, Release and
OnNotify calls, no Exclusive lock of the held set shares its name with any
other lock of the held set, Exclusive or Shared. -/
theorem mutual_exclusion (ops : List Op) (m : LockManager)
    (h : LockManager.empty.run ops = Except.ok m) (i j : Nat)
    (hi : i < m.held_.length) (hj : j < m.held_.length) (hij : i ≠ j)
    (he : m.held_[i].mode = Lock.Mode.EXCLUSIVE) : m.held_[i].name ≠ m.held_[j].name :=
  exclusion_index m.held_
    (run_keeps_exclusion ops LockManager.empty m (by simp [MutuallyExclusive, LockManager.empty]) h)
    i j hi hj hij he

theorem mutual_exclusion_witness :
    LockManager.empty.run scenario_mixed = Except.ok after_mixed ∧
    after_mixed.held_[0].name ≠ after_mixed.held_[1].name :=
  ⟨rfl, mutual_exclusion scenario_mixed after_mixed rfl 0 1 (by decide) (by decide) (by decide) rfl⟩

/-! ## Cancel -/

/-- The queue holds each request at most once. -/
theorem nodup_index (queue : List LockRequest) (hnd : (queue.map LockRequest.ptr).Nodup)
    (i j : Nat) (x y : LockRequest) (hi : queue[i]? = some x) (hj : queue[j]? = some y)
    (hxy : same_request x y = true) : i = j := by
  obtain ⟨hil, hix⟩ := List.getElem?_eq_some.mp hi
  obtain ⟨hjl, hjy⟩ := List.getElem?_eq_some.mp hj
  have h1 : i < (queue.map LockRequest.ptr).length := by simpa using hil
  have h2 : j < (queue.map LockRequest.ptr).length := by simpa using hjl
  have h3 : (queue.map LockRequest.ptr)[i] = (queue.map LockRequest.ptr)[j] := by
    simp only [List.getElem_map, hix, hjy]
    simpa [same_request] using hxy
  exact (List.Nodup.getElem_inj_iff hnd).mp h3

theorem erase_request_take (slots : List LockRequest) (size v : Nat) (hv : v < size)
    (hsize : size ≤ slots.length)
    (hnd : ((slots.take size).map LockRequest.ptr).Nodup) :
    (erase_request slots size v).1 = size - 1 ∧
    (erase_request slots size v).2.take (size - 1) = (slots.take size).eraseIdx v ∧
    (erase_request slots size v).2[v]? =
      (if v + 1 < size then slots[v + 1]? else slots[v]?) := by
  have h := erase_remove_alias same_request slots size v hv hsize
    (fun x => by simp [same_request])
    (fun i j x y hi hj hx hy hxy =>
      nodup_index (slots.take size) hnd i j x y
        (by rw [List.getElem?_take, if_pos hi]; exact hx)
        (by rw [List.getElem?_take, if_pos hj]; exact hy) hxy)
  unfold erase_request
  refine ⟨h.1, ?_, ?_⟩
  · apply List.ext_getElem?
    intro n
    rw [List.getElem?_take, h.2 n, List.getElem?_eraseIdx, List.getElem?_take,
      List.getElem?_take]
    by_cases h1 : n < size - 1
    · rw [if_pos h1]
      by_cases h2 : v ≤ n
      · rw [if_pos ⟨h2, h1⟩, if_neg (by omega), if_pos (by omega)]
      · rw [if_neg (by omega), if_pos (by omega), if_pos (by omega)]
    · rw [if_neg h1]
      by_cases h2 : n < v
      · omega
      · rw [if_neg h2, if_neg (by omega)]
  · rw [h.2 v]
    by_cases h1 : v + 1 < size
    · rw [if_pos ⟨le_refl _, by omega⟩, if_pos h1]
    · rw [if_neg (by omega), if_neg h1]

theorem eraseIdx_middle {α : Type} (pre post : List α) (x : α) :
    (pre ++ x :: post).eraseIdx pre.length = pre ++ post := by
  rw [List.eraseIdx_append_of_length_le (le_refl _)]
  simp

theorem Cancel_loop_found (R : LockRequest) (m : LockManager) (p : Nat) (q : LockRequest)
    (hq : m.requests_[p]? = some q) (hptr : q.ptr = R.ptr)
    (hbefore : ∀ j x, j < p → m.requests_[j]? = some x → x.ptr ≠ R.ptr) :
    ∀ (k i : Nat), i ≤ p → p < i + k →
      Cancel.loop R k i m =
        { m with
          requests_ := (erase_request m.requests_ m.requests_.length p).2.take
            (erase_request m.requests_ m.requests_.length p).1,
          notified := m.notified ++ [⟨R.ptr, LockRequest.Status.CANCELED, none⟩] } := by
  intro k
  induction k with
  | zero => intro i h1 h2; omega
  | succ k ih =>
    intro i h1 h2
    unfold Cancel.loop
    by_cases hip : i = p
    · subst hip
      rw [hq]
      simp only [hptr, if_true, LockManager.Notify]
    · obtain ⟨hpl, _⟩ := List.getElem?_eq_some.mp hq
      have hil : i < m.requests_.length := by omega
      rw [List.getElem?_eq_getElem hil]
      have := hbefore i _ (by omega) (List.getElem?_eq_getElem hil)
      simp only [this, if_false]
      exact ih (i + 1) (by omega) (by omega)

theorem Cancel_loop_absent (R : LockRequest) (m : LockManager)
    (habs : ∀ q ∈ m.requests_, q.ptr ≠ R.ptr) :
    ∀ (k i : Nat), Cancel.loop R k i m = m := by
  intro k
  induction k with
  | zero => intro i; rfl
  | succ k ih =>
    intro i
    unfold Cancel.loop
    split
    · rfl
    · rename_i req hreq
      have := habs req (by
        obtain ⟨hl, he⟩ := List.getElem?_eq_some.mp hreq
        rw [← he]; exact List.getElem_mem _)
      simp only [this, if_false]
      exact ih (i + 1)

/-- C9: Cancel.  In a state whose queue holds each request once: if `R` is in
the pending queue, `Cancel(R)` yields the queue with exactly `R` removed and
the other requests in their previous order, leaves the held set (and the
handles) unchanged and issues exactly one notification, Canceled with no
lock, to `R`; if `R` is not in the pending queue, `Cancel(R)` changes nothing
and issues no notification. -/
theorem Cancel_spec (m : LockManager) (R : LockRequest)
    (hnd : (m.requests_.map LockRequest.ptr).Nodup) :
    (∀ pre post : List LockRequest, m.requests_ = pre ++ R :: post →
      m.Cancel R =
        { m with
          requests_ := pre ++ post,
          notified := m.notified ++ [⟨R.ptr, LockRequest.Status.CANCELED, none⟩] }) ∧
    ((∀ q ∈ m.requests_, q.ptr ≠ R.ptr) → m.Cancel R = m) := by
  constructor
  · intro pre post hq
    have hp : m.requests_[pre.length]? = some R := by
      rw [hq, List.getElem?_append_right (le_refl _)]; simp
    have hlen : pre.length < m.requests_.length := (List.getElem?_eq_some.mp hp).1
    have hbefore : ∀ j x, j < pre.length → m.requests_[j]? = some x → x.ptr ≠ R.ptr := by
      intro j x hj hx hptr
      have := nodup_index m.requests_ hnd j pre.length x R hx hp (by simp [same_request, hptr])
      omega
    unfold LockManager.Cancel
    rw [Cancel_loop_found R m pre.length R hp rfl hbefore m.requests_.length 0
      (Nat.zero_le _) (by omega)]
    have ht := erase_request_take m.requests_ m.requests_.length pre.length hlen (le_refl _)
      (by rw [List.take_length]; exact hnd)
    rw [ht.1, ht.2.1, List.take_length, hq, eraseIdx_middle]
  · intro habs
    exact Cancel_loop_absent R m habs _ _

theorem Cancel_spec_witness :
    LockManager.empty.run scenario_waiting = Except.ok after_waiting ∧
    (after_waiting.requests_.map LockRequest.ptr).Nodup ∧
    after_waiting.Cancel ⟨2, "x", Lock.Mode.EXCLUSIVE, 0⟩ =
      { after_waiting with
        requests_ := [⟨3, "x", Lock.Mode.EXCLUSIVE, 0⟩],
        notified := after_waiting.notified ++ [⟨2, LockRequest.Status.CANCELED, none⟩] } :=
  ⟨rfl, by decide,
    (Cancel_spec after_waiting ⟨2, "x", Lock.Mode.EXCLUSIVE, 0⟩ (by decide)).1 []
      [⟨3, "x", Lock.Mode.EXCLUSIVE, 0⟩] rfl⟩

/-! ## The ifAvailable probe -/

theorem requests_before_snoc (R : LockRequest) (queue : List LockRequest) :
    requests_before R.ptr (queue ++ [R]) = requests_before R.ptr queue := by
  unfold requests_before
  induction queue with
  | nil => simp [List.takeWhile_cons]
  | cons a rest ih =>
    simp only [List.cons_append, List.takeWhile_cons]
    split
    · rw [ih]
    · rfl

/-- The probe of `Request`: `IsGrantable` on a request is its value with the
request appended at the end of the queue. -/
theorem IsGrantable_as_appended (m : LockManager) (R : LockRequest) :
    m.IsGrantable R = LockManager.IsGrantable { m with requests_ := m.requests_ ++ [R] } R := by
  rw [Bool.eq_iff_iff, IsGrantable_iff, IsGrantable_iff]
  simp only [spec_grantable, requests_before_snoc]

theorem step_requests (m m1 : LockManager) (op : Op) (h : m.step op = Except.ok m1)
    (q : LockRequest) (hq : q ∈ m1.requests_) : q ∈ m.requests_ ∨ op = Op.Request q := by
  cases op with
  | Request request =>
    simp only [LockManager.step, LockManager.Request] at h
    split at h
    · have hk := steal_loop_keeps request m.held_.length 0 (m.held_.map some) m.held_.length m
        (reduceOption_map_some m.held_).symm
      split at h
      · cases h
      · rename_i m2 hres
        rw [hres] at hk
        simp only [final_state] at hk
        cases h
        have := (ProcessQueue_keeps { m2 with requests_ := request :: m2.requests_ }).2.1.subset hq
        simp only [List.mem_cons] at this
        rcases this with h1 | h1
        · right; rw [h1]
        · left; rw [← hk.2.1]; exact h1
    · split at h
      · cases h
        left; exact hq
      · cases h
        have := (ProcessQueue_keeps { m with requests_ := m.requests_ ++ [request] }).2.1.subset hq
        simp only [List.mem_append, List.mem_singleton] at this
        rcases this with h1 | h1
        · left; exact h1
        · right; rw [h1]
  | Cancel request =>
    simp only [LockManager.step, LockManager.Cancel] at h
    cases h
    left
    exact (Cancel_loop_keeps request _ 0 m).2.1.subset hq
  | Release lock =>
    simp only [LockManager.step, LockManager.Release] at h
    cases h
    left
    have h1 := (ProcessQueue_keeps _).2.1.subset hq
    have he := manager_Eject_keys m lock Lock.EjectedReason.RELEASED
    have hl := Release_loop_keeps lock (m.Eject lock Lock.EjectedReason.RELEASED).held_.length 0
      ((m.Eject lock Lock.EjectedReason.RELEASED).held_.map some)
      (m.Eject lock Lock.EjectedReason.RELEASED).held_.length
      (m.Eject lock Lock.EjectedReason.RELEASED) (reduceOption_map_some _).symm
    rw [hl.2.1, he.2.1] at h1
    exact h1
  | OnNotify request =>
    simp only [LockManager.step] at h
    cases h
    left
    rw [(OnNotify_keys m request).2.1] at hq
    exact hq

theorem run_requests (ops : List Op) :
    ∀ (m m1 : LockManager), m.run ops = Except.ok m1 →
      ∀ q ∈ m1.requests_, q ∈ m.requests_ ∨ Op.Request q ∈ ops := by
  induction ops with
  | nil =>
    intro m m1 h q hq
    simp only [LockManager.run] at h
    cases h
    left; exact hq
  | cons op ops ih =>
    intro m m1 h q hq
    simp only [LockManager.run] at h
    split at h
    · cases h
    · rename_i m2 hstep
      rcases ih m2 m1 h q hq with h1 | h1
      · rcases step_requests m m2 op hstep q h1 with h2 | h2
        · left; exact h2
        · right; rw [h2]; exact List.mem_cons_self _ _
      · right; exact List.mem_cons_of_mem _ h1

/-- C8: the ifAvailable fast reject.  For every state and every request `R`
with ifAvailable set and steal clear that is not grantable when evaluated as
if appended at the end of the queue, `Request(R)` returns with the pending
queue and the held set (and everything else) as they were and exactly one
more notification, NotAvailable with no lock, to `R`; and, `R` being a fresh
request, it is in the pending queue of no state reached by later calls that
do not submit it again, so no later snapshot lists it as pending. -/
theorem if_available_reject (m : LockManager) (R : LockRequest)
    (hif : R.if_available = true) (hsteal : R.steal = false)
    (hng : LockManager.IsGrantable { m with requests_ := m.requests_ ++ [R] } R = false) :
    m.Request R =
      Except.ok { m with
        notified := m.notified ++ [⟨R.ptr, LockRequest.Status.NOT_AVAILABLE, none⟩] } ∧
    ∀ (ops : List Op) (m1 : LockManager),
      (∀ q ∈ m.requests_, q.ptr ≠ R.ptr) → (∀ r, Op.Request r ∈ ops → r.ptr ≠ R.ptr) →
      LockManager.run { m with
        notified := m.notified ++ [⟨R.ptr, LockRequest.Status.NOT_AVAILABLE, none⟩] } ops
          = Except.ok m1 →
      ∀ q ∈ m1.requests_, q.ptr ≠ R.ptr := by
  constructor
  · rw [← IsGrantable_as_appended] at hng
    simp [LockManager.Request, hif, hsteal, hng, LockManager.Notify]
  · intro ops m1 hfresh hops hrun q hq
    rcases run_requests ops _ m1 hrun q hq with h1 | h1
    · exact hfresh q h1
    · exact hops q h1

theorem if_available_reject_witness :
    LockManager.empty.run scenario_waiting = Except.ok after_waiting ∧
    after_waiting.Request ⟨4, "x", Lock.Mode.EXCLUSIVE, 1⟩ =
      Except.ok { after_waiting with
        notified := after_waiting.notified ++ [⟨4, LockRequest.Status.NOT_AVAILABLE, none⟩] } :=
  ⟨rfl, (if_available_reject after_waiting ⟨4, "x", Lock.Mode.EXCLUSIVE, 1⟩ rfl rfl rfl).1⟩

/-! ## The queue holds each request once -/

theorem step_requests_sublist (m m1 : LockManager) (op : Op) (h : m.step op = Except.ok m1) :
    m1.requests_.Sublist m.requests_ ∨
    ∃ r, op = Op.Request r ∧
      (m1.requests_.Sublist (r :: m.requests_) ∨ m1.requests_.Sublist (m.requests_ ++ [r])) := by
  cases op with
  | Request request =>
    right
    refine ⟨request, rfl, ?_⟩
    simp only [LockManager.step, LockManager.Request] at h
    split at h
    · have hk := steal_loop_keeps request m.held_.length 0 (m.held_.map some) m.held_.length m
        (reduceOption_map_some m.held_).symm
      split at h
      · cases h
      · rename_i m2 hres
        rw [hres] at hk
        simp only [final_state] at hk
        cases h
        left
        have := (ProcessQueue_keeps { m2 with requests_ := request :: m2.requests_ }).2.1
        rw [← hk.2.1]
        exact this
    · split at h
      · cases h
        left
        exact List.sublist_cons_self _ _
      · cases h
        right
        exact (ProcessQueue_keeps { m with requests_ := m.requests_ ++ [request] }).2.1
  | Cancel request =>
    simp only [LockManager.step, LockManager.Cancel] at h
    cases h
    left
    exact (Cancel_loop_keeps request _ 0 m).2.1
  | Release lock =>
    simp only [LockManager.step, LockManager.Release] at h
    cases h
    left
    have h1 := (ProcessQueue_keeps
      (Release.loop lock (m.Eject lock Lock.EjectedReason.RELEASED).held_.length 0
        ((m.Eject lock Lock.EjectedReason.RELEASED).held_.map some)
        (m.Eject lock Lock.EjectedReason.RELEASED).held_.length
        (m.Eject lock Lock.EjectedReason.RELEASED))).2.1
    have he := manager_Eject_keys m lock Lock.EjectedReason.RELEASED
    have hl := Release_loop_keeps lock (m.Eject lock Lock.EjectedReason.RELEASED).held_.length 0
      ((m.Eject lock Lock.EjectedReason.RELEASED).held_.map some)
      (m.Eject lock Lock.EjectedReason.RELEASED).held_.length
      (m.Eject lock Lock.EjectedReason.RELEASED) (reduceOption_map_some _).symm
    rw [hl.2.1, he.2.1] at h1
    exact h1
  | OnNotify request =>
    simp only [LockManager.step] at h
    cases h
    left
    rw [(OnNotify_keys m request).2.1]

/-- When every request is submitted at most once, the pending queue holds
each request at most once. -/
theorem run_queue_nodup (ops : List Op) :
    ∀ (m m1 : LockManager), (m.requests_.map LockRequest.ptr ++ submitted ops).Nodup →
      m.run ops = Except.ok m1 → (m1.requests_.map LockRequest.ptr).Nodup := by
  induction ops with
  | nil =>
    intro m m1 hnd h
    simp only [LockManager.run] at h
    cases h
    simpa [submitted] using hnd
  | cons op ops ih =>
    intro m m1 hnd h
    simp only [LockManager.run] at h
    split at h
    · cases h
    · rename_i m2 hstep
      apply ih m2 m1 _ h
      rcases step_requests_sublist m m2 op hstep with hs | ⟨r, rfl, hs | hs⟩
      · have h1 : (m.requests_.map LockRequest.ptr ++ submitted ops).Nodup := by
          cases op with
          | Request r =>
            simp only [submitted] at hnd
            exact hnd.sublist (List.Sublist.append_left (List.sublist_cons_self _ _) _)
          | Cancel r => simpa [submitted] using hnd
          | Release l => simpa [submitted] using hnd
          | OnNotify r => simpa [submitted] using hnd
        exact h1.sublist (List.Sublist.append_right (hs.map _) _)
      · simp only [submitted] at hnd
        have h1 : ((r :: m.requests_).map LockRequest.ptr ++ submitted ops).Nodup := by
          refine hnd.perm ?_
          simp only [List.map_cons, List.cons_append]
          exact List.perm_middle
        exact h1.sublist (List.Sublist.append_right (hs.map _) _)
      · simp only [submitted] at hnd
        have h1 : ((m.requests_ ++ [r]).map LockRequest.ptr ++ submitted ops).Nodup := by
          simpa using hnd
        exact h1.sublist (List.Sublist.append_right (hs.map _) _)

/-! ## Release of a lock that is not held -/

/-- C3 (the code at the failing input): after three Exclusive requests for x
and the release of the first lock, request 2 has left the queue without any
notification, while request 3 has been notified Granted and is still in the
queue; after the next release request 3 has two notifications and request 2
still none. -/
theorem notification_misdelivered :
    LockManager.empty.run scenario_handover = Except.ok after_handover ∧
    after_handover.pending 2 = false ∧ after_handover.notifications_of 2 = [] ∧
    after_handover.pending 3 = true ∧
    after_handover.notifications_of 3 = [⟨3, LockRequest.Status.GRANTED, some 1⟩] ∧
    after_handover.Release 1 = after_second_handover ∧
    after_second_handover.notifications_of 3 =
      [⟨3, LockRequest.Status.GRANTED, some 1⟩, ⟨3, LockRequest.Status.GRANTED, some 2⟩] ∧
    after_second_handover.notifications_of 2 = [] :=
  ⟨rfl, rfl, rfl, rfl, rfl, rfl, rfl, rfl⟩

/-- C4 (the code at the failing input): `ProcessQueue` finds request 3
(Exclusive x) grantable, adds lock 2 (x, Exclusive) and removes request 3
from the queue, but delivers the Granted notification carrying lock 2 to
request 4, a Shared request for y that stays in the queue. -/
theorem grant_notifies_next_request :
    LockManager.empty.run scenario_two_names = Except.ok after_two_names ∧
    before_grant.IsGrantable ⟨3, "x", Lock.Mode.EXCLUSIVE, 0⟩ = true ∧
    before_grant.ProcessQueue =
      { before_grant with
        requests_ := [⟨4, "y", Lock.Mode.SHARED, 0⟩],
        held_ := before_grant.held_ ++ [⟨2, "x", Lock.Mode.EXCLUSIVE, none⟩],
        notified := before_grant.notified ++ [⟨4, LockRequest.Status.GRANTED, some 2⟩],
        next := 3 } ∧
    after_two_names.Release 0 = before_grant.ProcessQueue :=
  ⟨rfl, rfl, rfl, rfl⟩

/-- C5 (the code at the failing input): A and B are submitted in a state with
no lock and no request named x; A is granted and B waits; after a third
request for x and the cancellation of another request, the release of the
lock of A leaves B in the queue, with no lock named x held. -/
theorem release_skips_waiting_request :
    LockManager.empty.run scenario_fair_start = Except.ok fair_start ∧
    fair_start.run [Op.Request fair_A, Op.Request fair_B] = Except.ok fair_AB ∧
    fair_AB.run fair_between = Except.ok fair_waiting ∧
    fair_waiting.Release 1 = fair_released ∧
    fair_released.pending fair_B.ptr = true ∧
    (∀ l ∈ fair_released.held_, l.name ≠ "x") :=
  ⟨rfl, rfl, rfl, rfl, rfl, by decide⟩

/-- C6 (the code at the failing input): two Shared locks on x are held, each
with a handle; a steal request for x ejects the first, then faults on the
null slot it left behind; the second lock is still in the held set and its
handle still reports held with no ejection reason. -/
theorem steal_leaves_second_holder :
    LockManager.empty.run scenario_two_readers = Except.ok two_readers ∧
    two_readers.Request ⟨3, "x", Lock.Mode.EXCLUSIVE, 2⟩ = Except.error two_readers_fault ∧
    two_readers_fault.held_ = [⟨2, "x", Lock.Mode.SHARED, some 3⟩] ∧
    two_readers_fault.wraps.map (fun w => (w.ptr, w.Held, w.EjectedReason)) =
      [(1, false, Lock.EjectedReason.STOLEN), (3, true, Lock.EjectedReason.NONE)] :=
  ⟨rfl, rfl, rfl, rfl⟩

/-- C7 (the code at the failing input): with an Exclusive request for x
waiting, a steal request 3 for x is granted lock 1 and leaves the queue, but
the only notification of the call, Granted with lock 1, goes to the waiting
request 2; request 3 is never notified. -/
theorem steal_notifies_waiting_request :
    LockManager.empty.run scenario_one_waiting = Except.ok one_waiting ∧
    one_waiting.Request ⟨3, "x", Lock.Mode.EXCLUSIVE, 2⟩ = Except.ok after_steal ∧
    after_steal.notified = one_waiting.notified ++ [⟨2, LockRequest.Status.GRANTED, some 1⟩] ∧
    after_steal.notifications_of 3 = [] ∧ after_steal.pending 2 = true :=
  ⟨rfl, rfl, rfl, rfl, rfl⟩

/-! ## Snapshot, the constructor, and further inputs where the code departs -/

/-- C12: the end-to-end scenario.  From the empty manager, Request of an
Exclusive request for doc notifies it Granted and the snapshot is
held = [(doc, exclusive)], pending = []; Request of a Shared request for doc
then issues no notification and the snapshot is held = [(doc, exclusive)],
pending = [(doc, shared)]; Release of the first lock notifies the second
request Granted and the snapshot is held = [(doc, shared)], pending = []. -/
theorem end_to_end :
    LockManager.empty.Request doc_first = Except.ok doc_granted ∧
    doc_granted.notified = [⟨doc_first.ptr, LockRequest.Status.GRANTED, some 0⟩] ∧
    Snapshot doc_granted = { pending := [], held := [("doc", "exclusive")] } ∧
    doc_granted.Request doc_second = Except.ok doc_waiting ∧
    doc_waiting.notified = doc_granted.notified ∧
    Snapshot doc_waiting = { pending := [("doc", "shared")], held := [("doc", "exclusive")] } ∧
    doc_waiting.Release 0 = doc_handed_over ∧
    doc_handed_over.notified =
      doc_waiting.notified ++ [⟨doc_second.ptr, LockRequest.Status.GRANTED, some 1⟩] ∧
    Snapshot doc_handed_over = { pending := [], held := [("doc", "shared")] } :=
  ⟨rfl, rfl, rfl, rfl, rfl, rfl, rfl, rfl, rfl⟩

theorem foldl_visits {σ : Type} (callback : σ → LockSnapshotType → String → Lock.Mode → σ)
    {α : Type} (tag : LockSnapshotType) (name : α → String) (mode : α → Lock.Mode) :
    ∀ (l : List α) (s : σ),
      l.foldl (fun acc x => callback acc tag (name x) (mode x)) s =
        (l.map (fun x => (tag, name x, mode x))).foldl
          (fun acc v => callback acc v.1 v.2.1 v.2.2) s := by
  intro l
  induction l with
  | nil => intro s; rfl
  | cons a t ih => intro s; simp only [List.foldl_cons, List.map_cons]; exact ih _

theorem foldl_record {α : Type} (l : List α) :
    ∀ (s : List α), l.foldl (fun acc v => acc ++ [v]) s = s ++ l := by
  induction l with
  | nil => intro s; simp
  | cons a t ih => intro s; simp only [List.foldl_cons]; rw [ih]; simp

/-- C13: Snapshot is a pure, ordered read.  For every state and every
callback, `Snapshot` leaves the manager (pending queue, held set and all
else) as it was, and calls the callback exactly on the visits the
specification lists, in their order: one per pending request in queue order
with its name and mode, tagged REQUEST, then one per held lock with its name
and mode, tagged LOCK; a callback that records its calls records exactly
that list. -/
theorem Snapshot_pure_ordered {σ : Type} (m : LockManager)
    (callback : σ → LockSnapshotType → String → Lock.Mode → σ) (s : σ) :
    (m.Snapshot callback s).1 = m ∧
    (m.Snapshot callback s).2 =
      (snapshot_visits m).foldl (fun acc v => callback acc v.1 v.2.1 v.2.2) s ∧
    (m.Snapshot (fun (acc : List (LockSnapshotType × String × Lock.Mode)) type name mode =>
      acc ++ [(type, name, mode)]) []).2 = snapshot_visits m := by
  refine ⟨rfl, ?_, ?_⟩
  · simp only [LockManager.Snapshot, snapshot_visits, List.foldl_append]
    rw [foldl_visits callback LockSnapshotType.REQUEST LockRequest.name LockRequest.mode,
      foldl_visits callback LockSnapshotType.LOCK Lock.name Lock.mode]
  · simp only [LockManager.Snapshot, snapshot_visits]
    rw [foldl_visits (fun (acc : List (LockSnapshotType × String × Lock.Mode)) type name mode =>
        acc ++ [(type, name, mode)]) LockSnapshotType.REQUEST LockRequest.name LockRequest.mode,
      foldl_visits (fun (acc : List (LockSnapshotType × String × Lock.Mode)) type name mode =>
        acc ++ [(type, name, mode)]) LockSnapshotType.LOCK Lock.name Lock.mode]
    simp only [foldl_record, List.nil_append]

/-- C14 (the code at the failing input): the constructor throws exactly for
the mode values above 1.  The mode -1 (like every negative 32-bit value)
passes the check `mode_ > Lock::Mode::SHARED`, and the request is handed to
`LockManager::Request` with `mode_` = -1. -/
theorem negative_mode_accepted :
    LockRequest.New "x" (-1) false false =
      Except.ok { name_ := "x", mode_ := -1, flags_ := 0 } ∧
    LockRequest.New "x" (-2147483648) true true =
      Except.ok { name_ := "x", mode_ := -2147483648, flags_ := 3 } ∧
    ∀ (name : String) (mode : Int) (if_available steal : Bool),
      (LockRequest.New name mode if_available steal = Except.error "invalid lock mode" ↔
        1 < mode) ∧
      (mode ≤ 1 → ∃ fields, LockRequest.New name mode if_available steal = Except.ok fields ∧
        fields.mode_ = mode) := by
  refine ⟨rfl, rfl, ?_⟩
  intro name mode if_available steal
  unfold LockRequest.New
  by_cases h : mode > 1
  · rw [if_pos h]
    exact ⟨⟨fun _ => h, fun _ => rfl⟩, fun h2 => absurd h (by omega)⟩
  · rw [if_neg h]
    exact ⟨⟨fun h2 => (by cases h2), fun h2 => absurd h2 h⟩, fun _ => ⟨_, rfl, rfl⟩⟩

/-- The method `Release` is the ejection of line 111 followed by the part
that runs under the mutex. -/
theorem Release_two_steps (m : LockManager) (lock : Nat) :
    m.Release lock = Release.locked (m.Eject lock Lock.EjectedReason.RELEASED) lock := rfl

/-- C15 (the code at the failing input): one thread releases lock 0, another
submits a steal request for x.  `Release` ejects before it takes the mutex;
when the steal request runs between the ejection and the rest of `Release`,
the final state is the one of neither order of the two calls: the waiting
request 2 is still pending (unlike release-then-steal) and the handle
records Released (unlike steal-then-release). -/
theorem Release_not_atomic :
    LockManager.empty.run scenario_held_with_handle = Except.ok held_with_handle ∧
    (∃ a b c : LockManager,
      (held_with_handle.Eject 0 Lock.EjectedReason.RELEASED).Request racing_steal = Except.ok a ∧
      (held_with_handle.Release 0).Request racing_steal = Except.ok b ∧
      held_with_handle.Request racing_steal = Except.ok c ∧
      (Release.locked a 0).pending 2 = true ∧
      (Release.locked a 0).wraps.map LockWrap.EjectedReason = [Lock.EjectedReason.RELEASED] ∧
      b.pending 2 = false ∧
      (c.Release 0).wraps.map LockWrap.EjectedReason = [Lock.EjectedReason.STOLEN] ∧
      Release.locked a 0 ≠ b ∧ Release.locked a 0 ≠ c.Release 0) :=
  ⟨rfl, _, _, _, rfl, rfl, rfl, rfl, rfl, rfl, rfl, by decide, by decide⟩

/-- C16 (the code at the failing input): the only held lock named x is
Exclusive and three Shared requests for x wait; the release of that lock
grants requests 2 and 4 but leaves request 3 in the pending queue, although
request 3 is grantable. -/
theorem release_leaves_reader_waiting :
    LockManager.empty.run scenario_three_readers = Except.ok three_readers ∧
    three_readers.Release 0 = three_readers_released ∧
    three_readers_released.pending 3 = true ∧
    three_readers_released.pending 2 = false ∧ three_readers_released.pending 4 = false ∧
    three_readers_released.IsGrantable ⟨3, "x", Lock.Mode.SHARED, 0⟩ = true :=
  ⟨rfl, rfl, rfl, rfl, rfl, rfl⟩

/-- C18 (the code at the failing input): lock 0 is stolen before the
notification of its request is delivered, so `Eject` finds no holder; the
delivery then makes a handle that refers to lock 0 and reports held,
although lock 0 is not in the held set. -/
theorem handle_on_stolen_lock :
    LockManager.empty.run scenario_late_delivery = Except.ok late_delivery ∧
    late_delivery.wraps.map (fun w => (w.lock_, w.Held, w.EjectedReason)) =
      [(some 0, true, Lock.EjectedReason.NONE)] ∧
    (∀ l ∈ late_delivery.held_, l.ptr ≠ 0) :=
  ⟨rfl, rfl, by decide⟩

/-- C20 (the code at the failing input): with three Shared requests for x
pending (pairwise distinct) and nothing held, one run of `ProcessQueue`
leaves request 3 in the queue although it is grantable, and a second run
immediately afterwards grants it: the queue, the held set and the
notifications change. -/
theorem pass_is_not_a_fixed_point :
    three_readers.Release 0 = readers_before_pass.ProcessQueue ∧
    (readers_before_pass.requests_.map LockRequest.ptr).Nodup ∧
    readers_before_pass.ProcessQueue.requests_ = [⟨3, "x", Lock.Mode.SHARED, 0⟩] ∧
    readers_before_pass.ProcessQueue.IsGrantable ⟨3, "x", Lock.Mode.SHARED, 0⟩ = true ∧
    readers_before_pass.ProcessQueue.ProcessQueue.requests_ = [] ∧
    readers_before_pass.ProcessQueue.ProcessQueue.held_ =
      readers_before_pass.ProcessQueue.held_ ++ [⟨4, "x", Lock.Mode.SHARED, none⟩] ∧
    readers_before_pass.ProcessQueue.ProcessQueue.notified =
      readers_before_pass.ProcessQueue.notified ++ [⟨3, LockRequest.Status.GRANTED, some 4⟩] :=
  ⟨rfl, by decide, rfl, rfl, rfl, rfl, rfl⟩

/-! ## What cancellation frees -/

theorem spec_grantable_blocks (held : List Lock) (queue : List LockRequest) (R : LockRequest) :
    spec_grantable held queue R ↔
      (∀ l ∈ held, ¬ blocks R l.name l.mode) ∧
      (∀ q ∈ requests_before R.ptr queue, ¬ blocks R q.name q.mode) := by
  unfold spec_grantable blocks
  cases hm : R.mode with
  | EXCLUSIVE => simp
  | SHARED => simp

theorem IsGrantable_blocks (m : LockManager) (R : LockRequest) :
    m.IsGrantable R = true ↔
      (∀ l ∈ m.held_, ¬ blocks R l.name l.mode) ∧
      (∀ q ∈ requests_before R.ptr m.requests_, ¬ blocks R q.name q.mode) := by
  rw [IsGrantable_iff, spec_grantable_blocks]

/-- With each request queued once, `Cancel` of a queued request removes it
and notifies it. -/
theorem Cancel_at (m : LockManager) (R Rq : LockRequest) (pre post : List LockRequest)
    (hnd : (m.requests_.map LockRequest.ptr).Nodup)
    (hq : m.requests_ = pre ++ Rq :: post) (hptr : Rq.ptr = R.ptr) :
    m.Cancel R =
      { m with
        requests_ := pre ++ post,
        notified := m.notified ++ [⟨R.ptr, LockRequest.Status.CANCELED, none⟩] } := by
  have hp : m.requests_[pre.length]? = some Rq := by
    rw [hq, List.getElem?_append_right (le_refl _)]; simp
  have hlen : pre.length < m.requests_.length := (List.getElem?_eq_some.mp hp).1
  have hbefore : ∀ j x, j < pre.length → m.requests_[j]? = some x → x.ptr ≠ R.ptr := by
    intro j x hj hx hxp
    have := nodup_index m.requests_ hnd j pre.length x Rq hx hp
      (by simp [same_request, hxp, hptr])
    omega
  unfold LockManager.Cancel
  rw [Cancel_loop_found R m pre.length Rq hp hptr hbefore m.requests_.length 0
    (Nat.zero_le _) (by omega)]
  have ht := erase_request_take m.requests_ m.requests_.length pre.length hlen (le_refl _)
    (by rw [List.take_length]; exact hnd)
  rw [ht.1, ht.2.1, List.take_length, hq, eraseIdx_middle]

theorem requests_before_stop (ptr : Nat) (pre rest : List LockRequest)
    (h : ∃ x ∈ pre, x.ptr = ptr) :
    requests_before ptr (pre ++ rest) = requests_before ptr pre := by
  unfold requests_before
  induction pre with
  | nil => obtain ⟨x, hx, _⟩ := h; cases hx
  | cons a t ih =>
    simp only [List.cons_append, List.takeWhile_cons]
    by_cases ha : a.ptr = ptr
    · simp [ha]
    · have hd : decide (a.ptr ≠ ptr) = true := decide_eq_true ha
      simp only [hd, if_true]
      rw [ih]
      obtain ⟨x, hx, hxp⟩ := h
      rcases List.mem_cons.mp hx with h1 | h1
      · exact absurd (h1 ▸ hxp) ha
      · exact ⟨x, h1, hxp⟩

theorem requests_before_pass (ptr : Nat) (pre rest : List LockRequest)
    (h : ∀ x ∈ pre, x.ptr ≠ ptr) :
    requests_before ptr (pre ++ rest) = pre ++ requests_before ptr rest := by
  unfold requests_before
  exact List.takeWhile_append_of_pos (fun a ha => decide_eq_true (h a ha))

/-- C17 (as stated, refuted): no pending request is grantable while request 2
(Exclusive x) waits for a Shared holder and request 3 (Shared x) waits behind
it; after `Cancel` of request 2, request 3 is pending and grantable. -/
theorem Cancel_makes_grantable :
    LockManager.empty.run scenario_blocked_reader = Except.ok blocked_reader ∧
    (∀ q ∈ blocked_reader.requests_, blocked_reader.IsGrantable q = false) ∧
    (blocked_reader.Cancel ⟨2, "x", Lock.Mode.EXCLUSIVE, 0⟩).requests_ =
      [⟨3, "x", Lock.Mode.SHARED, 0⟩] ∧
    (blocked_reader.Cancel ⟨2, "x", Lock.Mode.EXCLUSIVE, 0⟩).IsGrantable
      ⟨3, "x", Lock.Mode.SHARED, 0⟩ = true :=
  ⟨rfl, by decide, rfl, rfl⟩

/-- C17 (amended): cancellation frees only the place of the canceled request
in the queue.  In a state whose queue holds each request once and in which
no pending request is grantable, a request that is pending and grantable
after `Cancel(R)` was queued behind `R` and was blocked by `R`: it has the
name of `R`, and it or `R` is Exclusive.  No other pending request becomes
grantable. -/
theorem Cancel_unblocks_only_followers (m : LockManager) (R : LockRequest)
    (hnd : (m.requests_.map LockRequest.ptr).Nodup)
    (hidle : ∀ q ∈ m.requests_, m.IsGrantable q = false)
    (q : LockRequest) (hq : q ∈ (m.Cancel R).requests_)
    (hg : (m.Cancel R).IsGrantable q = true) :
    ∃ (pre post : List LockRequest) (Rq : LockRequest),
      m.requests_ = pre ++ Rq :: post ∧ Rq.ptr = R.ptr ∧ q ∈ post ∧
      blocks q Rq.name Rq.mode := by
  by_cases hin : ∃ x ∈ m.requests_, x.ptr = R.ptr
  · obtain ⟨Rq, hRq, hptr⟩ := hin
    obtain ⟨pre, post, hsplit⟩ := List.append_of_mem hRq
    have hc := Cancel_at m R Rq pre post hnd hsplit hptr
    rw [hc] at hq hg
    simp only at hq
    have hqm : q ∈ m.requests_ := by
      rw [hsplit]
      rcases List.mem_append.mp hq with h | h
      · exact List.mem_append_left _ h
      · exact List.mem_append_right _ (List.mem_cons_of_mem _ h)
    have hold := hidle q hqm
    rw [IsGrantable_blocks] at hg
    simp only at hg
    have hold2 : ¬ ((∀ l ∈ m.held_, ¬ blocks q l.name l.mode) ∧
        (∀ x ∈ requests_before q.ptr m.requests_, ¬ blocks q x.name x.mode)) := by
      rw [← IsGrantable_blocks, hold]; simp
    by_cases hpre : ∃ x ∈ pre, x.ptr = q.ptr
    · exfalso
      apply hold2
      refine ⟨hg.1, ?_⟩
      rw [hsplit, requests_before_stop q.ptr pre _ hpre]
      rw [requests_before_stop q.ptr pre _ hpre] at hg
      exact hg.2
    · have hpre2 : ∀ x ∈ pre, x.ptr ≠ q.ptr := fun x hx hp => hpre ⟨x, hx, hp⟩
      have hqpost : q ∈ post := by
        rcases List.mem_append.mp hq with h | h
        · exact absurd rfl (hpre2 q h)
        · exact h
      have hne : Rq.ptr ≠ q.ptr := by
        intro heq
        rw [hsplit] at hnd
        simp only [List.map_append, List.map_cons] at hnd
        have h1 := (List.nodup_append.mp hnd).2.1
        have h2 := (List.nodup_cons.mp h1).1
        apply h2
        rw [heq]
        exact List.mem_map_of_mem _ hqpost
      refine ⟨pre, post, Rq, hsplit, hptr, hqpost, ?_⟩
      by_contra hnb
      apply hold2
      refine ⟨hg.1, ?_⟩
      rw [hsplit, requests_before_pass q.ptr pre _ hpre2]
      rw [requests_before_pass q.ptr pre _ hpre2] at hg
      have hcons : requests_before q.ptr (Rq :: post) = Rq :: requests_before q.ptr post := by
        unfold requests_before
        simp [List.takeWhile_cons, hne]
      rw [hcons]
      intro x hx
      rcases List.mem_append.mp hx with h | h
      · exact hg.2 x (List.mem_append_left _ h)
      · rcases List.mem_cons.mp h with h1 | h1
        · rw [h1]; exact hnb
        · exact hg.2 x (List.mem_append_right _ h1)
  · exfalso
    have habs : ∀ x ∈ m.requests_, x.ptr ≠ R.ptr := fun x hx hp => hin ⟨x, hx, hp⟩
    have hc : m.Cancel R = m := Cancel_loop_absent R m habs _ _
    rw [hc] at hq hg
    rw [hidle q hq] at hg
    cases hg

theorem Cancel_unblocks_only_followers_witness :
    (blocked_reader.requests_.map LockRequest.ptr).Nodup ∧
    (∀ q ∈ blocked_reader.requests_, blocked_reader.IsGrantable q = false) ∧
    ∃ (pre post : List LockRequest) (Rq : LockRequest),
      blocked_reader.requests_ = pre ++ Rq :: post ∧ Rq.ptr = 2 ∧
      (⟨3, "x", Lock.Mode.SHARED, 0⟩ : LockRequest) ∈ post ∧
      blocks ⟨3, "x", Lock.Mode.SHARED, 0⟩ Rq.name Rq.mode :=
  ⟨by decide, by decide,
    Cancel_unblocks_only_followers blocked_reader ⟨2, "x", Lock.Mode.EXCLUSIVE, 0⟩
      (by decide) (by decide) ⟨3, "x", Lock.Mode.SHARED, 0⟩ (by decide) rfl⟩

/-! ## The request at the end of the queue -/

end piscina.locks
